import Mathlib

/-!
Verification of `src/bin/list-comments.rs` (commentable-rs).

Shallow embedding of the `ListComments` request pipeline: identity
resolution (`check_current_user` / `fetch_current_user`), comment loading
(`parse_comments`), user enrichment (`parse_users`), reaction aggregation
(`parse_reactions`) and tree serialization (`serialize` /
`serialize_comment`).

Modelling conventions:
* `BTreeMap<CommentId, Comment>` is a key-sorted association list
  (`bInsert` keeps it sorted, replacing an existing binding like
  `BTreeMap::insert`); `HashMap`s are association lists queried by
  `aLookup` (hash order never matters for the verified properties).
* `ReactionCount` is Rust `u16`: counts are `Nat` kept below `2 ^ 16`,
  with the increment `*count += 1` taken modulo `2 ^ 16` (release-mode
  wrapping semantics).
* Storage collaborators (`Comment::list`, `Reaction::list`,
  `User::batch_get`, `User::find`) and the request payload are
  parameters of type `Except String _`, mirroring their
  `Result<_, Error>` signatures.
* The recursive `serialize_comment` is embedded with an explicit fuel
  argument standing for the call stack; `SerErr.outOfFuel` marks fuel
  exhaustion (proved unreachable for loader-produced states) and
  `SerErr.panicMissingChild` marks the `.unwrap()` on a child lookup
  (proved unreachable as well).
-/

deriving instance DecidableEq for Except

namespace CommentableRs

/-- `CommentId` (opaque, sortable): modelled as `String`. -/
abbrev CommentId := String

/-- `UserId`: modelled as `String`. -/
abbrev UserId := String

/-- `ReactionType`: member of a small closed enumeration; modelled as `String`. -/
abbrev ReactionType := String

/-- `type ReactionCount = u16;` — the wrap-around modulus of `u16`. -/
def reactionModulus : Nat := 2 ^ 16

/-- The fields of the stored comment record (`models::comment::Comment`)
that `list-comments.rs` reads: `id`, `body`, `user_id`, `replies_to`. -/
structure CommentRecord where
  id : CommentId
  body : String
  user_id : UserId
  replies_to : Option CommentId
deriving DecidableEq, Repr

/-- The fields of `models::reaction::Reaction` that the aggregator reads. -/
structure Reaction where
  comment_id : CommentId
  user_id : UserId
  reaction_type : ReactionType
deriving DecidableEq, Repr

/-- The fields of `models::user::User` that this handler reads. -/
structure User where
  id : UserId
  name : String
  picture_url : String
deriving DecidableEq, Repr

/-- `struct UserJson { name, picture_url }`. -/
structure UserJson where
  name : String
  picture_url : String
deriving DecidableEq, Repr

/-- The in-memory `struct Comment` of `list-comments.rs`. -/
structure Comment where
  id : CommentId
  body : String
  user_id : UserId
  is_reply : Bool
  replies : List CommentId
  reactions : List (ReactionType × Nat)
  user_reactions : List ReactionType
deriving DecidableEq, Repr

/-- The error constructors of `utils::http` used by this handler. -/
inductive HttpError where
  | badRequest (msg : String)
  | unauthorized (msg : String)
  | internalServerError (msg : String)
deriving DecidableEq, Repr

/-- Association-list lookup (used for the `HashMap`s and, since lookup is
order-insensitive, also for the key-sorted `BTreeMap`). -/
def aLookup {α : Type} (k : String) : List (String × α) → Option α
  | [] => none
  | (k', v) :: rest => if k = k' then some v else aLookup k rest

/-- `BTreeMap::insert`: sorted insertion, replacing an existing binding. -/
def bInsert {α : Type} (k : String) (v : α) : List (String × α) → List (String × α)
  | [] => [(k, v)]
  | (k', v') :: rest =>
    if k < k' then (k, v) :: (k', v') :: rest
    else if k = k' then (k, v) :: rest
    else (k', v') :: bInsert k v rest

/-- In-place update through `get_mut` (a no-op when the key is absent). -/
def bModify {α : Type} (k : String) (f : α → α) : List (String × α) → List (String × α)
  | [] => []
  | (k', v) :: rest => if k = k' then (k', f v) :: rest else (k', v) :: bModify k f rest

/-- `HashMap::insert`-style replace-or-append, used to model
`collect::<HashMap<_, _>>` (later bindings win). -/
def aInsert {α : Type} (k : String) (v : α) : List (String × α) → List (String × α)
  | [] => [(k, v)]
  | (k', v') :: rest => if k = k' then (k, v) :: rest else (k', v') :: aInsert k v rest

/-- The mutable state of `struct ListComments` (minus the Dynamo client). -/
structure ListComments where
  comments : List (CommentId × Comment)
  users : List (UserId × UserJson)
  current_user : Option User
deriving DecidableEq, Repr

/-- `ListComments::new()`: empty maps, no current user. -/
def ListComments.new : ListComments := { comments := [], users := [], current_user := none }

/-- The `Comment` value inserted by `parse_comments` for a record. -/
def newComment (r : CommentRecord) (is_reply : Bool) : Comment :=
  { id := r.id, body := r.body, user_id := r.user_id, is_reply := is_reply
    replies := [], reactions := [], user_reactions := [] }

/-- `ListComments::parse_comments`: one forward pass over the fetched
records; a record with `replies_to = Some(parent)` requires the parent to
already be in the map (its id is pushed onto the parent's `replies`),
otherwise the whole call fails with `internal_server_error`. -/
def parse_comments (st : ListComments) : List CommentRecord → Except HttpError ListComments
  | [] => .ok st
  | r :: rest =>
    match r.replies_to with
    | some parent_id =>
      match aLookup parent_id st.comments with
      | some _ =>
        let linked := bModify parent_id (fun p => { p with replies := p.replies ++ [r.id] }) st.comments
        parse_comments { st with comments := bInsert r.id (newComment r true) linked } rest
      | none =>
        .error (HttpError.internalServerError
          ("Missing parent comment with ID: " ++ parent_id ++ ". Referenced in comment: " ++ r.id))
    | none =>
      parse_comments { st with comments := bInsert r.id (newComment r false) st.comments } rest

/-- `ListComments::fetch_comments`: a storage error becomes
`internal_server_error`, otherwise the batch is parsed. -/
def fetch_comments (fetched : Except String (List CommentRecord)) (st : ListComments) :
    Except HttpError ListComments :=
  match fetched with
  | .ok comments => parse_comments st comments
  | .error err => .error (HttpError.internalServerError err)

/-- `ListComments::parse_users`: project each `User` to `UserJson` and
collect into the `users` map (later duplicates replace earlier ones). -/
def parse_users (st : ListComments) (users : List User) : ListComments :=
  { st with users :=
      users.foldl (fun m u => aInsert u.id { name := u.name, picture_url := u.picture_url } m) [] }

/-- `ListComments::fetch_users`: batch-get errors become `internal_server_error`. -/
def fetch_users (fetched : Except String (List User)) (st : ListComments) :
    Except HttpError ListComments :=
  match fetched with
  | .ok users => .ok (parse_users st users)
  | .error err => .error (HttpError.internalServerError err)

/-- `*comment.reactions.entry(t).or_insert(0) += 1` with `u16` wrapping
(a new entry holds `(0 + 1) % 2 ^ 16 = 1`). -/
def incrReaction (t : ReactionType) : List (ReactionType × Nat) → List (ReactionType × Nat)
  | [] => [(t, (0 + 1) % reactionModulus)]
  | (t', c) :: rest =>
    if t = t' then (t', (c + 1) % reactionModulus) :: rest
    else (t', c) :: incrReaction t rest

/-- The update applied to the target comment of one reaction record. -/
def applyReaction (t : ReactionType) (is_user_reaction : Bool) (c : Comment) : Comment :=
  { c with
      reactions := incrReaction t c.reactions
      user_reactions :=
        if is_user_reaction then c.user_reactions ++ [t] else c.user_reactions }

/-- One iteration of the `parse_reactions` loop: tally the reaction into
its target comment (silently dropped when the target id is not a key) and,
when it belongs to the current user, append its type to `user_reactions`. -/
def parseReactionStep (st : ListComments) (r : Reaction) : ListComments :=
  let is_user_reaction :=
    match st.current_user with
    | some current_user => r.user_id = current_user.id
    | none => false
  match aLookup r.comment_id st.comments with
  | some _ =>
    { st with comments :=
        bModify r.comment_id (applyReaction r.reaction_type is_user_reaction) st.comments }
  | none => st

/-- `ListComments::parse_reactions`: fold over the reaction records;
always succeeds (`Ok(self)` in the source). -/
def parse_reactions (st : ListComments) (reactions : List Reaction) : ListComments :=
  reactions.foldl parseReactionStep st

/-- `ListComments::fetch_reactions`: a storage error becomes
`internal_server_error`, otherwise the records are folded in. -/
def fetch_reactions (fetched : Except String (List Reaction)) (st : ListComments) :
    Except HttpError ListComments :=
  match fetched with
  | .ok reactions => .ok (parse_reactions st reactions)
  | .error err => .error (HttpError.internalServerError err)

/-- The characters preceding the first occurrence of `delim` (the whole
input when `delim` never occurs; everything up to position 0 — i.e.
nothing — when `delim` is empty, as in Rust's `split("")`). -/
def firstSegmentChars (delim : List Char) : List Char → List Char
  | [] => []
  | c :: rest =>
    if delim.isPrefixOf (c :: rest) then [] else c :: firstSegmentChars delim rest

/-- The leading segment of the auth token: Rust
`auth_token.split(TOKEN_DELIMITER).next()`, which always yields the
(possibly empty) first segment — `next()` is never `None` on `split`. -/
def firstSegment (delim auth_token : String) : String :=
  ⟨firstSegmentChars delim.toList auth_token.toList⟩

/-- `ListComments::fetch_current_user`: derive the lookup key
`USER_<first segment>` and resolve it through `User::find` (a parameter
`find` here); `Ok(None)` becomes `unauthorized`, a storage error becomes
`internal_server_error`. -/
def fetch_current_user (find : UserId → Except String (Option User)) (delim : String)
    (auth_token : String) : Except HttpError User :=
  let user_id := "USER_" ++ firstSegment delim auth_token
  match find user_id with
  | .ok (some user) => .ok user
  | .ok none => .error (HttpError.unauthorized "Invalid access token.")
  | .error err => .error (HttpError.internalServerError err)

/-- `ListComments::check_current_user`: `payload` models
`request.payload::<Params>()` — a parse error becomes `bad_request`, no
payload means no acting user, and a payload carries the `auth_token`. -/
def check_current_user (find : UserId → Except String (Option User)) (delim : String)
    (payload : Except String (Option String)) (st : ListComments) :
    Except HttpError ListComments :=
  match payload with
  | .error err => .error (HttpError.badRequest ("Invalid request parameters: " ++ err))
  | .ok none => .ok st
  | .ok (some auth_token) =>
    match fetch_current_user find delim auth_token with
    | .ok user => .ok { st with current_user := some user }
    | .error e => .error e

/-- The serialized output node `struct CommentJson` (recursive, hence an
inductive with one constructor). -/

inductive CommentJson where
  | mk (id : CommentId) (body : String) (user : UserJson) (replies : List CommentJson)
      (reactions : List (ReactionType × Nat)) (user_reactions : List ReactionType)

/-- The `id` field of a serialized node. -/
def CommentJson.id : CommentJson → CommentId
  | .mk i _ _ _ _ _ => i

/-- The `body` field of a serialized node. -/
def CommentJson.body : CommentJson → String
  | .mk _ b _ _ _ _ => b

/-- The `user` field of a serialized node. -/
def CommentJson.user : CommentJson → UserJson
  | .mk _ _ u _ _ _ => u

/-- The `replies` field of a serialized node. -/
def CommentJson.replies : CommentJson → List CommentJson
  | .mk _ _ _ rs _ _ => rs

/-- The `reactions` field of a serialized node. -/
def CommentJson.reactions : CommentJson → List (ReactionType × Nat)
  | .mk _ _ _ _ re _ => re

/-- The `user_reactions` field of a serialized node. -/
def CommentJson.user_reactions : CommentJson → List ReactionType
  | .mk _ _ _ _ _ ur => ur

/-- Outcomes of serialization beyond `HttpError`: `panicMissingChild`
models the `.unwrap()` on `self.comments.get(id)` failing, `outOfFuel`
models exceeding the recursion-depth budget of the embedding. -/
inductive SerErr where
  | http (e : HttpError)
  | panicMissingChild
  | outOfFuel
deriving DecidableEq, Repr

/-- `comment.replies.iter().map(...).collect::<Result<Vec<_>, _>>()`:
look each child id up (panicking if absent, like `.unwrap()`) and
serialize it with the supplied recursor, short-circuiting on error. -/
def serializeChildren (st : ListComments) (recur : Comment → Except SerErr CommentJson) :
    List CommentId → Except SerErr (List CommentJson)
  | [] => .ok []
  | child_id :: rest =>
    match aLookup child_id st.comments with
    | none => .error SerErr.panicMissingChild
    | some child =>
      match recur child with
      | .error e => .error e
      | .ok j =>
        match serializeChildren st recur rest with
        | .error e => .error e
        | .ok js => .ok (j :: js)

/-- `ListComments::serialize_comment` with explicit fuel: resolve the
author's `UserJson` (failing with `internal_server_error` when absent),
then serialize the children in `replies` order. -/
def serialize_comment (st : ListComments) : Nat → Comment → Except SerErr CommentJson
  | 0, _ => .error SerErr.outOfFuel
  | fuel + 1, c =>
    match aLookup c.user_id st.users with
    | none =>
      .error (SerErr.http (HttpError.internalServerError
        ("Couldn't find a user with ID: " ++ c.user_id ++ ". Reference in comment: " ++ c.id)))
    | some user =>
      match serializeChildren st (serialize_comment st fuel) c.replies with
      | .error e => .error e
      | .ok js => .ok (CommentJson.mk c.id c.body user js c.reactions c.user_reactions)

/-- The root comments: `self.comments.values().filter(|c| !c.is_reply)`,
in the map's key order. -/
def rootComments (st : ListComments) : List Comment :=
  (st.comments.map Prod.snd).filter (fun c => !c.is_reply)

/-- `collect::<Result<Vec<_>, _>>` over an explicit list (short-circuits
at the first error, preserving order). -/
def exCollect {α : Type} : List (Except SerErr α) → Except SerErr (List α)
  | [] => .ok []
  | x :: xs =>
    match x with
    | .error e => .error e
    | .ok a =>
      match exCollect xs with
      | .error e => .error e
      | .ok as_ => .ok (a :: as_)

/-- `ListComments::serialize`: serialize every non-reply comment in map
order. The fuel `st.comments.length` is an upper bound on the recursion
depth reached from any loader-produced state (proved below). -/
def serialize (st : ListComments) : Except SerErr (List CommentJson) :=
  exCollect ((rootComments st).map (serialize_comment st st.comments.length))

/-- The count stored for `(comment k, reaction type t)` (`0` when the
comment or the entry is absent, matching `or_insert(0)` semantics). -/
def countOf (m : List (CommentId × Comment)) (k : CommentId) (t : ReactionType) : Nat :=
  match aLookup k m with
  | some c => (aLookup t c.reactions).getD 0
  | none => 0

/-- The acting user's reaction list stored for comment `k`. -/
def userReactionsOf (m : List (CommentId × Comment)) (k : CommentId) : List ReactionType :=
  match aLookup k m with
  | some c => c.user_reactions
  | none => []

/-- Does reaction record `r` target comment `k` with type `t`? -/
def matchesCT (k : CommentId) (t : ReactionType) (r : Reaction) : Bool :=
  r.comment_id = k && r.reaction_type = t

/-- Does reaction record `r` target comment `k` with the user id `u`? -/
def matchesCU (k : CommentId) (u : UserId) (r : Reaction) : Bool :=
  r.comment_id = k && r.user_id = u

/-! ## Derived definitions used by the development (invariants,
recursion measures, the composed pipeline and witness data) -/

/-- Keys of the map. -/
def keysOf {α : Type} (m : List (String × α)) : List String := m.map Prod.fst

/-- The keys of the map are strictly sorted (the `BTreeMap` invariant). -/
def SortedKeys {α : Type} (m : List (String × α)) : Prop :=
  (keysOf m).Pairwise (· < ·)

/-- Forget the `user_reactions` field of a comment. -/
def eraseUR (c : Comment) : Comment := { c with user_reactions := [] }

/-- Forget every `user_reactions` field in the comments map. -/
def eraseURM (m : List (CommentId × Comment)) : List (CommentId × Comment) :=
  m.map (fun p => (p.1, eraseUR p.2))

/-- Every reply-target recorded in a `replies` list is a key of the map. -/
def ClosedReplies (m : List (CommentId × Comment)) : Prop :=
  ∀ p ∈ m, ∀ k' ∈ p.2.replies, (aLookup k' m).isSome = true

/-- Every stored comment's `id` field is its own key. -/
def IdsMatch (m : List (CommentId × Comment)) : Prop :=
  ∀ p ∈ m, p.2.id = p.1

/-- `d` is a strict rank along reply edges, and every key ranks below `n`. -/
def BoundedRank (n : Nat) (d : CommentId → Nat) (m : List (CommentId × Comment)) : Prop :=
  (∀ k ∈ keysOf m, d k < n) ∧ ∀ p ∈ m, ∀ k' ∈ p.2.replies, d p.1 < d k'

/-- A serialization outcome is "nice" when it is a success or an
`internal_server_error`: neither a panic nor fuel exhaustion. -/
def NiceRes {α : Type} (x : Except SerErr α) : Prop :=
  (∃ a, x = .ok a) ∨ ∃ msg, x = .error (SerErr.http (HttpError.internalServerError msg))

/-- How many keys rank strictly above `k` (the recursion measure for the
fuel-sufficiency proof). -/
def countAbove (m : List (CommentId × Comment)) (d : CommentId → Nat) (k : CommentId) : Nat :=
  (keysOf m).countP (fun k' => decide (d k < d k'))

/-- A stored comment id reached by the recursive walk of `serialize`:
either a non-reply root, or listed in the `replies` of a walked comment. -/
inductive Walked (m : List (CommentId × Comment)) : CommentId → Prop
  | root (k : CommentId) (c : Comment) : (k, c) ∈ m → c.is_reply = false → Walked m k
  | child (k : CommentId) (c : Comment) (k' : CommentId) :
      Walked m k → (k, c) ∈ m → k' ∈ c.replies → Walked m k'

/-- `P` holds at every node of a serialized subtree. -/
inductive AllNodes (P : CommentJson → Prop) : CommentJson → Prop
  | node (j : CommentJson) : P j → (∀ j' ∈ j.replies, AllNodes P j') → AllNodes P j

/-- The composed request pipeline of `ListComments::respond_to` (after
path-parameter extraction): identity resolution, comment loading, user
enrichment, reaction aggregation, serialization — short-circuiting on the
first error. -/
def listCommentsPipeline (find : UserId → Except String (Option User)) (delim : String)
    (payload : Except String (Option String))
    (commentsFetch : Except String (List CommentRecord))
    (usersFetch : Except String (List User))
    (reactionsFetch : Except String (List Reaction)) : Except SerErr (List CommentJson) :=
  match check_current_user find delim payload ListComments.new with
  | .error e => .error (.http e)
  | .ok st1 =>
    match fetch_comments commentsFetch st1 with
    | .error e => .error (.http e)
    | .ok st2 =>
      match fetch_users usersFetch st2 with
      | .error e => .error (.http e)
      | .ok st3 =>
        match fetch_reactions reactionsFetch st3 with
        | .error e => .error (.http e)
        | .ok st4 => serialize st4

/-- Sample skeleton used by the witnesses: one root comment `c1`. -/
def wComment1 : Comment :=
  { id := "c1", body := "hi", user_id := "u1", is_reply := false
    replies := [], reactions := [], user_reactions := [] }

/-- Sample state with `c1` in the skeleton and no acting user. -/
def wStateAnon : ListComments :=
  { comments := [("c1", wComment1)], users := [], current_user := none }

/-- Sample acting user. -/
def wUser : User := { id := "u1", name := "Ann", picture_url := "pic1" }

/-- Sample state with `c1` in the skeleton and acting user `u1`. -/
def wStateAuth : ListComments :=
  { comments := [("c1", wComment1)], users := [], current_user := some wUser }

/-- A `like` on `c1` by `u2`. -/
def wLikeByU2 : Reaction := { comment_id := "c1", user_id := "u2", reaction_type := "like" }

/-- A `like` on `c1` by `u1`. -/
def wLikeByU1 : Reaction := { comment_id := "c1", user_id := "u1", reaction_type := "like" }

/-- A reaction targeting an id absent from the skeleton. -/
def wStray : Reaction := { comment_id := "zz", user_id := "u1", reaction_type := "like" }

/-- First record of the witness thread: root comment `c1`. -/
def w9r1 : CommentRecord := { id := "c1", body := "hi", user_id := "u1", replies_to := none }

/-- Second record of the witness thread: `c2`, a reply to `c1`. -/
def w9r2 : CommentRecord := { id := "c2", body := "hello", user_id := "u2", replies_to := some "c1" }

/-- The loaded `c1` with its reply link populated. -/
def w9c1 : Comment :=
  { id := "c1", body := "hi", user_id := "u1", is_reply := false
    replies := ["c2"], reactions := [], user_reactions := [] }

/-- The loaded `c2`. -/
def w9c2 : Comment :=
  { id := "c2", body := "hello", user_id := "u2", is_reply := true
    replies := [], reactions := [], user_reactions := [] }

/-- The loader's output on the witness thread. -/
def w9skel : ListComments :=
  { comments := [("c1", w9c1), ("c2", w9c2)], users := [], current_user := none }

/-- Profile store for the C6 counterexample, holding a profile under the
bare key `USER_` (the key an empty leading segment derives). -/
def c6find : UserId → Except String (Option User) := fun uid =>
  if uid = "USER_" then .ok (some { id := "USER_", name := "ghost", picture_url := "p" })
  else .ok none

/-- The comment whose author `u9` is missing from every profile batch. -/
def w7c : Comment :=
  { id := "c1", body := "hi", user_id := "u9", is_reply := false
    replies := [], reactions := [], user_reactions := [] }

/-- Witness state: `c1` loaded, but the user lookup is empty. -/
def w7State : ListComments := { comments := [("c1", w7c)], users := [], current_user := none }

/-- Witness thread root `c1` (with child `c2`). -/
def w8c1 : Comment :=
  { id := "c1", body := "hi", user_id := "u1", is_reply := false
    replies := ["c2"], reactions := [], user_reactions := [] }

/-- Witness thread reply `c2`. -/
def w8c2 : Comment :=
  { id := "c2", body := "hello", user_id := "u2", is_reply := true
    replies := [], reactions := [], user_reactions := [] }

/-- Display projection of `u1`. -/
def w8uj1 : UserJson := { name := "Ann", picture_url := "p1" }

/-- Display projection of `u2`. -/
def w8uj2 : UserJson := { name := "Bob", picture_url := "p2" }

/-- Witness state: the enriched two-comment thread. -/
def w8State : ListComments :=
  { comments := [("c1", w8c1), ("c2", w8c2)]
    users := [("u1", w8uj1), ("u2", w8uj2)], current_user := none }

/-- The serialized output of the witness state: one root with one nested
child whose children list is empty. -/
def w8Out : List CommentJson :=
  [CommentJson.mk "c1" "hi" w8uj1 [CommentJson.mk "c2" "hello" w8uj2 [] [] []] [] []]

/-! ## Basic lemmas about the association-list maps -/

theorem aLookup_bModify {α : Type} (k k' : String) (f : α → α) (m : List (String × α)) :
    aLookup k (bModify k' f m) = if k = k' then (aLookup k m).map f else aLookup k m := by
  induction m with
  | nil => simp [bModify, aLookup]
  | cons hd tl ih =>
    obtain ⟨k'', v⟩ := hd
    by_cases h1 : k' = k''
    · subst h1
      by_cases h2 : k = k' <;> simp [bModify, aLookup, h2]
    · by_cases h2 : k = k''
      · subst h2
        simp [bModify, aLookup, h1, Ne.symm h1]
      · simp [bModify, aLookup, h1, h2, ih]

theorem aLookup_bInsert {α : Type} (k k' : String) (v : α) (m : List (String × α)) :
    aLookup k (bInsert k' v m) = if k = k' then some v else aLookup k m := by
  induction m with
  | nil => by_cases h : k = k' <;> simp [bInsert, aLookup, h]
  | cons hd tl ih =>
    obtain ⟨k'', v'⟩ := hd
    rcases lt_trichotomy k' k'' with hlt | heq | hgt
    · by_cases h2 : k = k'
      · subst h2
        simp [bInsert, aLookup, hlt]
      · simp [bInsert, aLookup, hlt, h2]
    · subst heq
      by_cases h2 : k = k' <;> simp [bInsert, aLookup, lt_irrefl, h2]
    · have hne : ¬ k' < k'' := not_lt_of_gt hgt
      have hne2 : k' ≠ k'' := ne_of_gt hgt
      by_cases h2 : k = k''
      · subst h2
        simp [bInsert, aLookup, hne, hne2, Ne.symm hne2]
      · simp [bInsert, aLookup, hne, hne2, h2, ih]

theorem isSome_aLookup_bModify {α : Type} (k k' : String) (f : α → α) (m : List (String × α)) :
    (aLookup k (bModify k' f m)).isSome = (aLookup k m).isSome := by
  rw [aLookup_bModify]
  by_cases h : k = k' <;> simp [h]

theorem keysOf_nil {α : Type} : keysOf ([] : List (String × α)) = [] := rfl

theorem keysOf_cons {α : Type} (p : String × α) (m : List (String × α)) :
    keysOf (p :: m) = p.1 :: keysOf m := rfl

theorem keysOf_bModify {α : Type} (k : String) (f : α → α) (m : List (String × α)) :
    keysOf (bModify k f m) = keysOf m := by
  induction m with
  | nil => rfl
  | cons hd tl ih =>
    obtain ⟨k', v⟩ := hd
    by_cases h : k = k'
    · simp [bModify, h, keysOf_cons]
    · simp only [bModify, if_neg h, keysOf_cons, ih]

theorem mem_keysOf_bInsert {α : Type} (x k : String) (v : α) (m : List (String × α)) :
    x ∈ keysOf (bInsert k v m) ↔ x = k ∨ x ∈ keysOf m := by
  induction m with
  | nil => simp [bInsert, keysOf]
  | cons hd tl ih =>
    obtain ⟨k', v'⟩ := hd
    rcases lt_trichotomy k k' with hlt | heq | hgt
    · rw [show bInsert k v ((k', v') :: tl) = (k, v) :: (k', v') :: tl from by
        simp [bInsert, hlt]]
      simp only [keysOf_cons, List.mem_cons]
    · subst heq
      rw [show bInsert k v ((k, v') :: tl) = (k, v) :: tl from by simp [bInsert, lt_irrefl]]
      simp only [keysOf_cons, List.mem_cons]
      tauto
    · have hne : ¬ k < k' := not_lt_of_gt hgt
      have hne2 : k ≠ k' := ne_of_gt hgt
      rw [show bInsert k v ((k', v') :: tl) = (k', v') :: bInsert k v tl from by
        simp [bInsert, hne, hne2]]
      simp only [keysOf_cons, List.mem_cons, ih]
      tauto

theorem aLookup_eq_some_mem {α : Type} {k : String} {v : α} {m : List (String × α)} :
    aLookup k m = some v → (k, v) ∈ m := by
  induction m with
  | nil => simp [aLookup]
  | cons hd tl ih =>
    obtain ⟨k', v'⟩ := hd
    by_cases h : k = k'
    · subst h
      intro hx
      rw [show aLookup k ((k, v') :: tl) = some v' from by simp [aLookup]] at hx
      rw [show v = v' from (Option.some.inj hx).symm]
      exact List.mem_cons_self _ _
    · intro hx
      rw [show aLookup k ((k', v') :: tl) = aLookup k tl from by simp [aLookup, h]] at hx
      exact List.mem_cons_of_mem _ (ih hx)

theorem aLookup_isSome_iff_mem_keysOf {α : Type} (k : String) (m : List (String × α)) :
    (aLookup k m).isSome ↔ k ∈ keysOf m := by
  induction m with
  | nil => simp [aLookup, keysOf]
  | cons hd tl ih =>
    obtain ⟨k', v'⟩ := hd
    by_cases h : k = k' <;> simp [aLookup, keysOf, h] <;> simpa [keysOf] using ih

theorem sortedKeys_nil {α : Type} : SortedKeys ([] : List (String × α)) :=
  List.Pairwise.nil

theorem sortedKeys_cons_iff {α : Type} {p : String × α} {m : List (String × α)} :
    SortedKeys (p :: m) ↔ (∀ x ∈ keysOf m, p.1 < x) ∧ SortedKeys m := by
  unfold SortedKeys
  rw [keysOf_cons, List.pairwise_cons]

theorem sortedKeys_bModify {α : Type} (k : String) (f : α → α) {m : List (String × α)}
    (h : SortedKeys m) : SortedKeys (bModify k f m) := by
  unfold SortedKeys
  rw [keysOf_bModify]
  exact h

theorem sortedKeys_bInsert {α : Type} (k : String) (v : α) {m : List (String × α)}
    (h : SortedKeys m) : SortedKeys (bInsert k v m) := by
  induction m with
  | nil =>
    show SortedKeys [(k, v)]
    exact sortedKeys_cons_iff.mpr ⟨by simp [keysOf_nil], sortedKeys_nil⟩
  | cons hd tl ih =>
    obtain ⟨k', v'⟩ := hd
    obtain ⟨hlt, htl⟩ := sortedKeys_cons_iff.mp h
    rcases lt_trichotomy k k' with h1 | h1 | h1
    · rw [show bInsert k v ((k', v') :: tl) = (k, v) :: (k', v') :: tl from by
        simp [bInsert, h1]]
      refine sortedKeys_cons_iff.mpr ⟨?_, h⟩
      intro x hx
      rw [keysOf_cons, List.mem_cons] at hx
      rcases hx with rfl | hx
      · exact h1
      · exact h1.trans (hlt x hx)
    · subst h1
      rw [show bInsert k v ((k, v') :: tl) = (k, v) :: tl from by
        simp [bInsert, lt_irrefl]]
      exact sortedKeys_cons_iff.mpr ⟨hlt, htl⟩
    · have hne : ¬ k < k' := not_lt_of_gt h1
      have hne2 : k ≠ k' := ne_of_gt h1
      rw [show bInsert k v ((k', v') :: tl) = (k', v') :: bInsert k v tl from by
        simp [bInsert, hne, hne2]]
      refine sortedKeys_cons_iff.mpr ⟨?_, ih htl⟩
      intro x hx
      rcases (mem_keysOf_bInsert x k v tl).mp hx with rfl | hx
      · exact h1
      · exact hlt x hx

theorem nodup_keysOf_of_sorted {α : Type} {m : List (String × α)} (h : SortedKeys m) :
    (keysOf m).Nodup :=
  h.imp ne_of_lt

theorem mem_iff_aLookup_of_nodup {α : Type} {k : String} {v : α} {m : List (String × α)}
    (hnd : (keysOf m).Nodup) : (k, v) ∈ m ↔ aLookup k m = some v := by
  induction m with
  | nil => simp [aLookup]
  | cons hd tl ih =>
    obtain ⟨k', v'⟩ := hd
    rw [keysOf_cons, List.nodup_cons] at hnd
    obtain ⟨hk', htl⟩ := hnd
    by_cases h : k = k'
    · subst h
      rw [show aLookup k ((k, v') :: tl) = some v' from by simp [aLookup]]
      constructor
      · intro hmem
        rcases List.mem_cons.mp hmem with hp | hmem
        · exact congrArg some (congrArg Prod.snd hp).symm
        · exact absurd (List.mem_map_of_mem Prod.fst hmem) hk'
      · intro hv
        rw [show v = v' from (Option.some.inj hv).symm]
        exact List.mem_cons_self _ _
    · rw [show aLookup k ((k', v') :: tl) = aLookup k tl from by simp [aLookup, h]]
      rw [List.mem_cons, ← ih htl]
      constructor
      · rintro (hp | hmem)
        · exact absurd (congrArg Prod.fst hp) h
        · exact hmem
      · exact Or.inr

theorem mem_bInsert_sorted {α : Type} {p : String × α} {k : String} {v : α}
    {m : List (String × α)} (hs : SortedKeys m) (hp : p ∈ bInsert k v m) :
    p = (k, v) ∨ (p ∈ m ∧ p.1 ≠ k) := by
  induction m with
  | nil =>
    left
    simpa [bInsert] using hp
  | cons hd tl ih =>
    obtain ⟨k', v'⟩ := hd
    obtain ⟨hlt, htl⟩ := sortedKeys_cons_iff.mp hs
    rcases lt_trichotomy k k' with h1 | h1 | h1
    · rw [show bInsert k v ((k', v') :: tl) = (k, v) :: (k', v') :: tl from by
        simp [bInsert, h1]] at hp
      rcases List.mem_cons.mp hp with hp | hp
      · left; exact hp
      · right
        refine ⟨hp, ?_⟩
        rcases List.mem_cons.mp hp with hp2 | hp2
        · rw [hp2]; exact ne_of_gt h1
        · have := hlt p.1 (List.mem_map_of_mem Prod.fst hp2)
          exact ne_of_gt (h1.trans this)
    · subst h1
      rw [show bInsert k v ((k, v') :: tl) = (k, v) :: tl from by
        simp [bInsert, lt_irrefl]] at hp
      rcases List.mem_cons.mp hp with hp | hp
      · left; exact hp
      · right
        refine ⟨List.mem_cons_of_mem _ hp, ?_⟩
        have := hlt p.1 (List.mem_map_of_mem Prod.fst hp)
        exact ne_of_gt this
    · have hne : ¬ k < k' := not_lt_of_gt h1
      have hne2 : k ≠ k' := ne_of_gt h1
      rw [show bInsert k v ((k', v') :: tl) = (k', v') :: bInsert k v tl from by
        simp [bInsert, hne, hne2]] at hp
      rcases List.mem_cons.mp hp with hp | hp
      · right
        refine ⟨List.mem_cons.mpr (Or.inl hp), ?_⟩
        rw [hp]
        exact Ne.symm hne2
      · rcases ih htl hp with h | ⟨hmem, hne3⟩
        · left; exact h
        · right; exact ⟨List.mem_cons_of_mem _ hmem, hne3⟩

theorem mem_bModify_sorted {α : Type} {p : String × α} {k : String} {f : α → α}
    {m : List (String × α)} (hs : SortedKeys m) (hp : p ∈ bModify k f m) :
    (p ∈ m ∧ p.1 ≠ k) ∨ (∃ v, (k, v) ∈ m ∧ p = (k, f v)) := by
  induction m with
  | nil => simp [bModify] at hp
  | cons hd tl ih =>
    obtain ⟨k', v'⟩ := hd
    obtain ⟨hlt, htl⟩ := sortedKeys_cons_iff.mp hs
    by_cases h : k = k'
    · subst h
      rw [show bModify k f ((k, v') :: tl) = (k, f v') :: tl from by simp [bModify]] at hp
      rcases List.mem_cons.mp hp with hp | hp
      · right; exact ⟨v', List.mem_cons_self _ _, hp⟩
      · left
        refine ⟨List.mem_cons_of_mem _ hp, ?_⟩
        have := hlt p.1 (List.mem_map_of_mem Prod.fst hp)
        exact ne_of_gt this
    · rw [show bModify k f ((k', v') :: tl) = (k', v') :: bModify k f tl from by
        simp [bModify, h]] at hp
      rcases List.mem_cons.mp hp with hp | hp
      · left
        refine ⟨List.mem_cons.mpr (Or.inl hp), ?_⟩
        rw [hp]
        exact Ne.symm h
      · rcases ih htl hp with ⟨hmem, hne⟩ | ⟨v, hmem, hpv⟩
        · left; exact ⟨List.mem_cons_of_mem _ hmem, hne⟩
        · right; exact ⟨v, List.mem_cons_of_mem _ hmem, hpv⟩

theorem mem_bModify_weak {α : Type} {p : String × α} {k : String} {f : α → α}
    {m : List (String × α)} (hp : p ∈ bModify k f m) :
    p ∈ m ∨ ∃ v, (p.1, v) ∈ m ∧ p.2 = f v := by
  induction m with
  | nil => simp [bModify] at hp
  | cons hd tl ih =>
    obtain ⟨k', v'⟩ := hd
    by_cases h : k = k'
    · subst h
      rw [show bModify k f ((k, v') :: tl) = (k, f v') :: tl from by simp [bModify]] at hp
      rcases List.mem_cons.mp hp with hp | hp
      · right
        refine ⟨v', ?_, ?_⟩
        · rw [show p.1 = k from congrArg Prod.fst hp]
          exact List.mem_cons_self _ _
        · exact congrArg Prod.snd hp
      · left; exact List.mem_cons_of_mem _ hp
    · rw [show bModify k f ((k', v') :: tl) = (k', v') :: bModify k f tl from by
        simp [bModify, h]] at hp
      rcases List.mem_cons.mp hp with hp | hp
      · left; exact List.mem_cons.mpr (Or.inl hp)
      · rcases ih hp with hmem | ⟨v, hmem, hv⟩
        · left; exact List.mem_cons_of_mem _ hmem
        · right; exact ⟨v, List.mem_cons_of_mem _ hmem, hv⟩

theorem mem_bInsert_weak {α : Type} {p : String × α} {k : String} {v : α}
    {m : List (String × α)} (hp : p ∈ bInsert k v m) : p = (k, v) ∨ p ∈ m := by
  induction m with
  | nil =>
    left
    simpa [bInsert] using hp
  | cons hd tl ih =>
    obtain ⟨k', v'⟩ := hd
    rcases lt_trichotomy k k' with h1 | h1 | h1
    · rw [show bInsert k v ((k', v') :: tl) = (k, v) :: (k', v') :: tl from by
        simp [bInsert, h1]] at hp
      rcases List.mem_cons.mp hp with hp | hp
      · left; exact hp
      · right; exact hp
    · subst h1
      rw [show bInsert k v ((k, v') :: tl) = (k, v) :: tl from by
        simp [bInsert, lt_irrefl]] at hp
      rcases List.mem_cons.mp hp with hp | hp
      · left; exact hp
      · right; exact List.mem_cons_of_mem _ hp
    · have hne : ¬ k < k' := not_lt_of_gt h1
      have hne2 : k ≠ k' := ne_of_gt h1
      rw [show bInsert k v ((k', v') :: tl) = (k', v') :: bInsert k v tl from by
        simp [bInsert, hne, hne2]] at hp
      rcases List.mem_cons.mp hp with hp | hp
      · right; exact List.mem_cons.mpr (Or.inl hp)
      · rcases ih hp with h | h
        · left; exact h
        · right; exact List.mem_cons_of_mem _ h

/-! ## Reaction-aggregation lemmas -/

theorem aLookup_incrReaction_self (t : ReactionType) (rm : List (ReactionType × Nat)) :
    aLookup t (incrReaction t rm) = some (((aLookup t rm).getD 0 + 1) % reactionModulus) := by
  induction rm with
  | nil => simp [incrReaction, aLookup]
  | cons hd tl ih =>
    obtain ⟨t', c⟩ := hd
    by_cases h : t = t'
    · subst h
      rw [show incrReaction t ((t, c) :: tl) = (t, (c + 1) % reactionModulus) :: tl from by
        simp [incrReaction]]
      simp [aLookup]
    · rw [show incrReaction t ((t', c) :: tl) = (t', c) :: incrReaction t tl from by
        simp [incrReaction, h]]
      rw [show aLookup t ((t', c) :: incrReaction t tl) = aLookup t (incrReaction t tl) from by
        simp [aLookup, h]]
      rw [show aLookup t ((t', c) :: tl) = aLookup t tl from by simp [aLookup, h]]
      exact ih

theorem aLookup_incrReaction_other (t s : ReactionType) (h : s ≠ t)
    (rm : List (ReactionType × Nat)) : aLookup s (incrReaction t rm) = aLookup s rm := by
  induction rm with
  | nil => simp [incrReaction, aLookup, h]
  | cons hd tl ih =>
    obtain ⟨t', c⟩ := hd
    by_cases h2 : t = t'
    · subst h2
      rw [show incrReaction t ((t, c) :: tl) = (t, (c + 1) % reactionModulus) :: tl from by
        simp [incrReaction]]
      simp [aLookup, h]
    · rw [show incrReaction t ((t', c) :: tl) = (t', c) :: incrReaction t tl from by
        simp [incrReaction, h2]]
      by_cases h3 : s = t'
      · simp [aLookup, h3]
      · simp [aLookup, h3, ih]

theorem parseReactionStep_users (st : ListComments) (r : Reaction) :
    (parseReactionStep st r).users = st.users := by
  unfold parseReactionStep
  cases aLookup r.comment_id st.comments <;> rfl

theorem parseReactionStep_current_user (st : ListComments) (r : Reaction) :
    (parseReactionStep st r).current_user = st.current_user := by
  unfold parseReactionStep
  cases aLookup r.comment_id st.comments <;> rfl

theorem parseReactionStep_comments (st : ListComments) (r : Reaction) :
    (parseReactionStep st r).comments =
      match aLookup r.comment_id st.comments with
      | some _ =>
        bModify r.comment_id
          (applyReaction r.reaction_type
            (match st.current_user with
             | some current_user => r.user_id = current_user.id
             | none => false))
          st.comments
      | none => st.comments := by
  unfold parseReactionStep
  cases aLookup r.comment_id st.comments <;> rfl

theorem isSome_parseReactionStep (st : ListComments) (r : Reaction) (k : CommentId) :
    (aLookup k (parseReactionStep st r).comments).isSome =
      (aLookup k st.comments).isSome := by
  rw [parseReactionStep_comments]
  cases aLookup r.comment_id st.comments with
  | none => rfl
  | some c => exact isSome_aLookup_bModify k r.comment_id _ st.comments

theorem matchesCT_eq_true {k : CommentId} {t : ReactionType} {r : Reaction} :
    matchesCT k t r = true ↔ (r.comment_id = k ∧ r.reaction_type = t) := by
  simp [matchesCT]

theorem matchesCU_eq_true {k : CommentId} {u : UserId} {r : Reaction} :
    matchesCU k u r = true ↔ (r.comment_id = k ∧ r.user_id = u) := by
  simp [matchesCU]

theorem countOf_eq (m : List (CommentId × Comment)) (k : CommentId) (t : ReactionType) :
    countOf m k t = ((aLookup k m).map (fun c => (aLookup t c.reactions).getD 0)).getD 0 := by
  unfold countOf
  cases aLookup k m <;> rfl

theorem countOf_parseReactionStep (st : ListComments) (r : Reaction) (k : CommentId)
    (t : ReactionType) (hk : (aLookup k st.comments).isSome) :
    countOf (parseReactionStep st r).comments k t =
      if matchesCT k t r then (countOf st.comments k t + 1) % reactionModulus
      else countOf st.comments k t := by
  rw [parseReactionStep_comments]
  cases hcl : aLookup r.comment_id st.comments with
  | none =>
    have hne : ¬ matchesCT k t r = true := by
      intro hm
      obtain ⟨h1, _⟩ := matchesCT_eq_true.mp hm
      rw [h1] at hcl
      rw [hcl] at hk
      simp at hk
    simp only [if_neg hne]
  | some c0 =>
    by_cases hck : k = r.comment_id
    · have hkc : aLookup k st.comments = some c0 := by rw [hck]; exact hcl
      rw [countOf_eq, countOf_eq, aLookup_bModify, if_pos hck, hkc]
      by_cases ht : t = r.reaction_type
      · have hct : matchesCT k t r = true := matchesCT_eq_true.mpr ⟨hck.symm, ht.symm⟩
        rw [if_pos hct]
        simp only [Option.map_some', Option.getD_some, applyReaction]
        rw [ht, aLookup_incrReaction_self]
        simp
      · have hcf : ¬ matchesCT k t r = true := by
          intro hm
          exact ht (matchesCT_eq_true.mp hm).2.symm
        rw [if_neg hcf]
        simp only [Option.map_some', Option.getD_some, applyReaction]
        rw [aLookup_incrReaction_other _ _ ht]
    · rw [countOf_eq, countOf_eq, aLookup_bModify, if_neg hck]
      have hne : ¬ matchesCT k t r = true := by
        intro hm
        exact hck (matchesCT_eq_true.mp hm).1.symm
      simp only [if_neg hne]

theorem parse_reactions_cons (st : ListComments) (r : Reaction) (rs : List Reaction) :
    parse_reactions st (r :: rs) = parse_reactions (parseReactionStep st r) rs := rfl

theorem parse_reactions_nil (st : ListComments) : parse_reactions st [] = st := rfl

theorem isSome_parse_reactions (rs : List Reaction) :
    ∀ (st : ListComments) (k : CommentId),
      (aLookup k (parse_reactions st rs).comments).isSome = (aLookup k st.comments).isSome := by
  induction rs with
  | nil => intro st k; rfl
  | cons r rs ih =>
    intro st k
    rw [parse_reactions_cons, ih, isSome_parseReactionStep]

theorem users_parse_reactions (rs : List Reaction) :
    ∀ st : ListComments, (parse_reactions st rs).users = st.users := by
  induction rs with
  | nil => intro st; rfl
  | cons r rs ih =>
    intro st
    rw [parse_reactions_cons, ih, parseReactionStep_users]

theorem current_user_parse_reactions (rs : List Reaction) :
    ∀ st : ListComments, (parse_reactions st rs).current_user = st.current_user := by
  induction rs with
  | nil => intro st; rfl
  | cons r rs ih =>
    intro st
    rw [parse_reactions_cons, ih, parseReactionStep_current_user]

/-- The central tally lemma: folding a record list into a state where
comment `k` is present and its `(k, t)` tally is still below `2 ^ 16`
yields the old tally plus the number of matching records, modulo `2 ^ 16`. -/
theorem countOf_parse_reactions (rs : List Reaction) :
    ∀ (st : ListComments) (k : CommentId) (t : ReactionType),
      (aLookup k st.comments).isSome →
      countOf st.comments k t < reactionModulus →
      countOf (parse_reactions st rs).comments k t =
        (countOf st.comments k t + rs.countP (matchesCT k t)) % reactionModulus := by
  induction rs with
  | nil =>
    intro st k t _ hlt
    simp only [parse_reactions_nil, List.countP_nil, Nat.add_zero]
    exact (Nat.mod_eq_of_lt hlt).symm
  | cons r rs ih =>
    intro st k t hk hlt
    rw [parse_reactions_cons]
    have hk' : (aLookup k (parseReactionStep st r).comments).isSome := by
      rw [isSome_parseReactionStep]; exact hk
    have hstep := countOf_parseReactionStep st r k t hk
    by_cases hm : matchesCT k t r = true
    · rw [if_pos hm] at hstep
      have hlt' : countOf (parseReactionStep st r).comments k t < reactionModulus := by
        rw [hstep]
        exact Nat.mod_lt _ (by norm_num [reactionModulus])
      rw [ih _ k t hk' hlt', hstep, Nat.mod_add_mod, List.countP_cons_of_pos _ _ hm]
      congr 1
      omega
    · rw [if_neg hm] at hstep
      have hlt' : countOf (parseReactionStep st r).comments k t < reactionModulus := by
        rw [hstep]; exact hlt
      rw [ih _ k t hk' hlt', hstep, List.countP_cons_of_neg _ _ hm]

theorem userReactionsOf_eq (m : List (CommentId × Comment)) (k : CommentId) :
    userReactionsOf m k = ((aLookup k m).map Comment.user_reactions).getD [] := by
  unfold userReactionsOf
  cases aLookup k m <;> rfl

theorem userReactionsOf_parseReactionStep (st : ListComments) (r : Reaction) (k : CommentId)
    (u : User) (hcu : st.current_user = some u) (hk : (aLookup k st.comments).isSome) :
    userReactionsOf (parseReactionStep st r).comments k =
      userReactionsOf st.comments k ++
        (if matchesCU k u.id r then [r.reaction_type] else []) := by
  rw [parseReactionStep_comments, hcu]
  cases hcl : aLookup r.comment_id st.comments with
  | none =>
    have hne : ¬ matchesCU k u.id r = true := by
      intro hm
      obtain ⟨h1, _⟩ := matchesCU_eq_true.mp hm
      rw [h1] at hcl
      rw [hcl] at hk
      simp at hk
    simp only [if_neg hne, List.append_nil]
  | some c0 =>
    by_cases hck : k = r.comment_id
    · have hkc : aLookup k st.comments = some c0 := by rw [hck]; exact hcl
      rw [userReactionsOf_eq, userReactionsOf_eq, aLookup_bModify, if_pos hck, hkc]
      by_cases hu : r.user_id = u.id
      · have hm : matchesCU k u.id r = true := matchesCU_eq_true.mpr ⟨hck.symm, hu⟩
        rw [if_pos hm]
        simp [applyReaction, hu]
      · have hm : ¬ matchesCU k u.id r = true := by
          intro hmm
          exact hu (matchesCU_eq_true.mp hmm).2
        rw [if_neg hm]
        simp [applyReaction, hu]
    · rw [userReactionsOf_eq, userReactionsOf_eq, aLookup_bModify, if_neg hck]
      have hm : ¬ matchesCU k u.id r = true := by
        intro hmm
        exact hck (matchesCU_eq_true.mp hmm).1.symm
      simp only [if_neg hm, List.append_nil]

/-- With an acting user, the stored `user_reactions` list for a present
comment is the old list extended by the types of the matching records, in
input order. -/
theorem userReactionsOf_parse_reactions (rs : List Reaction) :
    ∀ (st : ListComments) (k : CommentId) (u : User),
      st.current_user = some u →
      (aLookup k st.comments).isSome →
      userReactionsOf (parse_reactions st rs).comments k =
        userReactionsOf st.comments k ++
          (rs.filter (matchesCU k u.id)).map Reaction.reaction_type := by
  induction rs with
  | nil =>
    intro st k u _ _
    simp [parse_reactions_nil]
  | cons r rs ih =>
    intro st k u hcu hk
    rw [parse_reactions_cons]
    have hcu' : (parseReactionStep st r).current_user = some u := by
      rw [parseReactionStep_current_user]; exact hcu
    have hk' : (aLookup k (parseReactionStep st r).comments).isSome := by
      rw [isSome_parseReactionStep]; exact hk
    rw [ih _ k u hcu' hk', userReactionsOf_parseReactionStep st r k u hcu hk]
    by_cases hm : matchesCU k u.id r = true
    · rw [if_pos hm, List.filter_cons_of_pos hm]
      simp
    · rw [if_neg hm, List.filter_cons_of_neg hm]
      simp

/-- With no acting user, `parse_reactions` never touches any
`user_reactions` list. -/
theorem userReactionsOf_parse_reactions_anon (rs : List Reaction) :
    ∀ (st : ListComments) (k : CommentId),
      st.current_user = none →
      userReactionsOf (parse_reactions st rs).comments k = userReactionsOf st.comments k := by
  induction rs with
  | nil => intro st k _; rfl
  | cons r rs ih =>
    intro st k hcu
    rw [parse_reactions_cons]
    have hcu' : (parseReactionStep st r).current_user = none := by
      rw [parseReactionStep_current_user]; exact hcu
    rw [ih _ k hcu']
    rw [userReactionsOf_eq, userReactionsOf_eq, parseReactionStep_comments, hcu]
    cases aLookup r.comment_id st.comments with
    | none => rfl
    | some c0 =>
      rw [aLookup_bModify]
      by_cases hck : k = r.comment_id
      · rw [if_pos hck]
        cases aLookup k st.comments with
        | none => rfl
        | some c => simp [applyReaction]
      · rw [if_neg hck]

theorem aLookup_eraseURM (k : CommentId) (m : List (CommentId × Comment)) :
    aLookup k (eraseURM m) = (aLookup k m).map eraseUR := by
  induction m with
  | nil => rfl
  | cons hd tl ih =>
    obtain ⟨k', c⟩ := hd
    by_cases h : k = k'
    · simp [eraseURM, aLookup, h]
    · simp only [eraseURM, List.map_cons] at *
      rw [show aLookup k ((k', eraseUR c) :: List.map (fun p => (p.1, eraseUR p.2)) tl)
          = aLookup k (List.map (fun p => (p.1, eraseUR p.2)) tl) from by simp [aLookup, h]]
      rw [show aLookup k ((k', c) :: tl) = aLookup k tl from by simp [aLookup, h]]
      exact ih

theorem countOf_eraseURM (m : List (CommentId × Comment)) (k : CommentId) (t : ReactionType) :
    countOf (eraseURM m) k t = countOf m k t := by
  rw [countOf_eq, countOf_eq, aLookup_eraseURM]
  cases aLookup k m <;> rfl

theorem eraseURM_bModify (k : CommentId) (f g : Comment → Comment)
    (hfg : ∀ c, eraseUR (f c) = g (eraseUR c)) (m : List (CommentId × Comment)) :
    eraseURM (bModify k f m) = bModify k g (eraseURM m) := by
  induction m with
  | nil => rfl
  | cons hd tl ih =>
    obtain ⟨k', c⟩ := hd
    by_cases h : k = k'
    · simp [bModify, eraseURM, h, hfg]
    · simp only [bModify, if_neg h, eraseURM, List.map_cons]
      rw [show eraseURM (bModify k f tl) = List.map (fun p => (p.1, eraseUR p.2)) (bModify k f tl)
          from rfl] at ih
      rw [ih]
      rfl

theorem eraseUR_applyReaction (t : ReactionType) (b : Bool) (c : Comment) :
    eraseUR (applyReaction t b c) = applyReaction t false (eraseUR c) := by
  cases b <;> simp [eraseUR, applyReaction]

/-- Anonymize-then-step equals step-then-anonymize: the tallies written by
one `parse_reactions` iteration do not depend on the acting user. -/
theorem eraseURM_parseReactionStep (st : ListComments) (r : Reaction) :
    eraseURM (parseReactionStep st r).comments =
      (parseReactionStep
        { comments := eraseURM st.comments, users := [], current_user := none } r).comments := by
  rw [parseReactionStep_comments, parseReactionStep_comments]
  simp only
  rw [aLookup_eraseURM]
  cases aLookup r.comment_id st.comments with
  | none => rfl
  | some c0 =>
    simp only [Option.map_some']
    exact eraseURM_bModify _ _ _ (eraseUR_applyReaction _ _) st.comments

theorem parseReactionStep_eta (st : ListComments) (r : Reaction) :
    parseReactionStep st r =
      { comments := (parseReactionStep st r).comments,
        users := st.users,
        current_user := st.current_user } := by
  unfold parseReactionStep
  cases aLookup r.comment_id st.comments <;> rfl

theorem eraseURM_parse_reactions (rs : List Reaction) :
    ∀ st : ListComments,
      eraseURM (parse_reactions st rs).comments =
        (parse_reactions
          { comments := eraseURM st.comments, users := [], current_user := none } rs).comments := by
  induction rs with
  | nil => intro st; rfl
  | cons r rs ih =>
    intro st
    rw [parse_reactions_cons, parse_reactions_cons, ih]
    congr 1
    have he := parseReactionStep_eta { comments := eraseURM st.comments, users := [], current_user := none } r
    rw [he, ← eraseURM_parseReactionStep]

/-- The per-comment tallies produced by `parse_reactions` are a function
of the comments map and the record list alone: any two states with the
same comments map — in particular with different (or no) acting users —
produce identical counts everywhere. -/
theorem countOf_parse_reactions_user_irrelevant (rs : List Reaction)
    (st₁ st₂ : ListComments) (h : st₁.comments = st₂.comments)
    (k : CommentId) (t : ReactionType) :
    countOf (parse_reactions st₁ rs).comments k t =
      countOf (parse_reactions st₂ rs).comments k t := by
  rw [← countOf_eraseURM (parse_reactions st₁ rs).comments,
    ← countOf_eraseURM (parse_reactions st₂ rs).comments,
    eraseURM_parse_reactions, eraseURM_parse_reactions, h]

/-- Records whose target comment id is not a key of the map are dropped:
filtering them away first yields the exact same state. -/
theorem parse_reactions_filter_present (rs : List Reaction) :
    ∀ st : ListComments,
      parse_reactions st rs =
        parse_reactions st (rs.filter (fun r => (aLookup r.comment_id st.comments).isSome)) := by
  induction rs with
  | nil => intro st; rfl
  | cons r rs ih =>
    intro st
    rw [parse_reactions_cons]
    cases hcl : (aLookup r.comment_id st.comments).isSome with
    | true =>
      rw [show (r :: rs).filter (fun r' => (aLookup r'.comment_id st.comments).isSome)
          = r :: rs.filter (fun r' => (aLookup r'.comment_id st.comments).isSome) from by
        simp only [List.filter_cons, hcl]
        rw [if_pos trivial]]
      rw [parse_reactions_cons, ih (parseReactionStep st r)]
      congr 1
      apply List.filter_congr
      intro x _
      rw [isSome_parseReactionStep]
    | false =>
      have hstep : parseReactionStep st r = st := by
        unfold parseReactionStep
        simp only
        cases hc2 : aLookup r.comment_id st.comments with
        | none => rfl
        | some c => rw [hc2] at hcl; simp at hcl
      rw [show (r :: rs).filter (fun r' => (aLookup r'.comment_id st.comments).isSome)
          = rs.filter (fun r' => (aLookup r'.comment_id st.comments).isSome) from by
        simp only [List.filter_cons, hcl]
        rw [if_neg Bool.false_ne_true]]
      rw [hstep, ih st]

/-! ## Comment-loader lemmas -/

theorem parse_comments_nil (st : ListComments) : parse_comments st [] = .ok st := rfl

theorem parse_comments_cons_root (st : ListComments) (r : CommentRecord)
    (rest : List CommentRecord) (h : r.replies_to = none) :
    parse_comments st (r :: rest) =
      parse_comments { st with comments := bInsert r.id (newComment r false) st.comments }
        rest := by
  conv_lhs => unfold parse_comments
  cases hr : r.replies_to with
  | none => rfl
  | some p => rw [h] at hr; exact absurd hr (by simp)

theorem parse_comments_cons_reply_present (st : ListComments) (r : CommentRecord)
    (rest : List CommentRecord) (p : CommentId) (c : Comment)
    (h : r.replies_to = some p) (hc : aLookup p st.comments = some c) :
    parse_comments st (r :: rest) =
      parse_comments { st with comments := bInsert r.id (newComment r true) (bModify p (fun q => { q with replies := q.replies ++ [r.id] }) st.comments) } rest := by
  obtain ⟨rid, rbody, ruid, rrep⟩ := r
  have h' : rrep = some p := h
  subst h'
  have e1 : parse_comments st ({ id := rid, body := rbody, user_id := ruid, replies_to := some p } :: rest) =
      (match aLookup p st.comments with
       | some _ => parse_comments { st with comments := bInsert rid (newComment { id := rid, body := rbody, user_id := ruid, replies_to := some p } true) (bModify p (fun q => { q with replies := q.replies ++ [rid] }) st.comments) } rest
       | none => Except.error (HttpError.internalServerError ("Missing parent comment with ID: " ++ p ++ ". Referenced in comment: " ++ rid))) := rfl
  rw [e1, hc]

theorem parse_comments_cons_reply_absent (st : ListComments) (r : CommentRecord)
    (rest : List CommentRecord) (p : CommentId)
    (h : r.replies_to = some p) (hc : aLookup p st.comments = none) :
    parse_comments st (r :: rest) =
      .error (HttpError.internalServerError
        ("Missing parent comment with ID: " ++ p ++ ". Referenced in comment: " ++ r.id)) := by
  obtain ⟨rid, rbody, ruid, rrep⟩ := r
  have h' : rrep = some p := h
  subst h'
  have e1 : parse_comments st ({ id := rid, body := rbody, user_id := ruid, replies_to := some p } :: rest) =
      (match aLookup p st.comments with
       | some _ => parse_comments { st with comments := bInsert rid (newComment { id := rid, body := rbody, user_id := ruid, replies_to := some p } true) (bModify p (fun q => { q with replies := q.replies ++ [rid] }) st.comments) } rest
       | none => Except.error (HttpError.internalServerError ("Missing parent comment with ID: " ++ p ++ ". Referenced in comment: " ++ rid))) := rfl
  rw [e1, hc]

/-- The loader only ever fails with `internal_server_error`. -/
theorem parse_comments_error_internal (batch : List CommentRecord) :
    ∀ (st : ListComments) (e : HttpError), parse_comments st batch = .error e →
      ∃ msg, e = HttpError.internalServerError msg := by
  induction batch with
  | nil =>
    intro st e h
    rw [parse_comments_nil] at h
    exact absurd h (by simp)
  | cons r rest ih =>
    intro st e h
    cases hr : r.replies_to with
    | none =>
      rw [parse_comments_cons_root st r rest hr] at h
      exact ih _ e h
    | some p =>
      cases hc : aLookup p st.comments with
      | some c =>
        rw [parse_comments_cons_reply_present st r rest p c hr hc] at h
        exact ih _ e h
      | none =>
        rw [parse_comments_cons_reply_absent st r rest p hr hc] at h
        exact ⟨_, (Except.error.inj h).symm⟩

/-- If the loader succeeds, every reply-target was either already a key
of the starting map or the id of some record of the batch. -/
theorem parse_comments_ok_targets (batch : List CommentRecord) :
    ∀ (st st' : ListComments), parse_comments st batch = .ok st' →
      ∀ r ∈ batch, ∀ p, r.replies_to = some p →
        ((aLookup p st.comments).isSome ∨ p ∈ batch.map CommentRecord.id) := by
  induction batch with
  | nil =>
    intro st st' _ r hr
    exact absurd hr (List.not_mem_nil r)
  | cons r0 rest ih =>
    intro st st' hok r hr p hp
    cases hr0 : r0.replies_to with
    | none =>
      rw [parse_comments_cons_root st r0 rest hr0] at hok
      rcases List.mem_cons.mp hr with rfl | hr
      · rw [hp] at hr0; exact absurd hr0 (by simp)
      · rcases ih _ _ hok r hr p hp with hs | hs
        · rw [aLookup_bInsert] at hs
          by_cases hpk : p = r0.id
          · right
            rw [List.map_cons, hpk]
            exact List.mem_cons_self _ _
          · rw [if_neg hpk] at hs
            left
            simpa using hs
        · right
          exact List.mem_cons_of_mem _ hs
    | some q =>
      cases hc : aLookup q st.comments with
      | none =>
        rw [parse_comments_cons_reply_absent st r0 rest q hr0 hc] at hok
        exact absurd hok (by simp)
      | some c =>
        rw [parse_comments_cons_reply_present st r0 rest q c hr0 hc] at hok
        rcases List.mem_cons.mp hr with rfl | hr
        · left
          rw [hp] at hr0
          rw [show q = p from (Option.some.inj hr0).symm] at hc
          rw [hc]
          rfl
        · rcases ih _ _ hok r hr p hp with hs | hs
          · rw [aLookup_bInsert] at hs
            by_cases hpk : p = r0.id
            · right
              rw [List.map_cons, hpk]
              exact List.mem_cons_self _ _
            · rw [if_neg hpk] at hs
              rw [isSome_aLookup_bModify] at hs
              left
              simpa using hs
          · right
            exact List.mem_cons_of_mem _ hs

theorem isSome_aLookup_bInsert_of {α : Type} {x k : String} {v : α} {m : List (String × α)}
    (h : (aLookup x m).isSome = true) : (aLookup x (bInsert k v m)).isSome = true := by
  rw [aLookup_bInsert]
  by_cases hx : x = k
  · rw [if_pos hx]; rfl
  · rw [if_neg hx]; exact h

theorem isSome_aLookup_bInsert_self {α : Type} (k : String) (v : α) (m : List (String × α)) :
    (aLookup k (bInsert k v m)).isSome = true := by
  rw [aLookup_bInsert, if_pos rfl]
  rfl

theorem closedReplies_root_step {m : List (CommentId × Comment)} {k : CommentId} {c : Comment}
    (hm : ClosedReplies m) (hc : c.replies = []) : ClosedReplies (bInsert k c m) := by
  intro p hp k' hk'
  rcases mem_bInsert_weak hp with rfl | hp
  · rw [hc] at hk'
    exact absurd hk' (List.not_mem_nil k')
  · exact isSome_aLookup_bInsert_of (hm p hp k' hk')

theorem closedReplies_reply_step {m : List (CommentId × Comment)} {rid pid : CommentId}
    {c : Comment} (hm : ClosedReplies m) (hc : c.replies = []) :
    ClosedReplies
      (bInsert rid c (bModify pid (fun q => { q with replies := q.replies ++ [rid] }) m)) := by
  intro p hp k' hk'
  rcases mem_bInsert_weak hp with rfl | hp
  · rw [hc] at hk'
    exact absurd hk' (List.not_mem_nil k')
  · rcases mem_bModify_weak hp with hp | ⟨v, hv, hpv⟩
    · have := hm p hp k' hk'
      rw [← isSome_aLookup_bModify k' pid (fun q => { q with replies := q.replies ++ [rid] }) m]
        at this
      exact isSome_aLookup_bInsert_of this
    · rw [hpv] at hk'
      simp only at hk'
      rcases List.mem_append.mp hk' with hk' | hk'
      · have := hm (p.1, v) hv k' hk'
        rw [← isSome_aLookup_bModify k' pid (fun q => { q with replies := q.replies ++ [rid] }) m]
          at this
        exact isSome_aLookup_bInsert_of this
      · rw [show k' = rid from by simpa using hk']
        exact isSome_aLookup_bInsert_self _ _ _

/-- The loader preserves closedness of reply links (used from the empty
map, this is the global tree-skeleton invariant). -/
theorem parse_comments_closed (batch : List CommentRecord) :
    ∀ (st st' : ListComments), parse_comments st batch = .ok st' →
      ClosedReplies st.comments → ClosedReplies st'.comments := by
  induction batch with
  | nil =>
    intro st st' hok hcl
    rw [parse_comments_nil] at hok
    rw [← Except.ok.inj hok]
    exact hcl
  | cons r rest ih =>
    intro st st' hok hcl
    cases hr : r.replies_to with
    | none =>
      rw [parse_comments_cons_root st r rest hr] at hok
      exact ih _ _ hok (closedReplies_root_step hcl rfl)
    | some p =>
      cases hc : aLookup p st.comments with
      | none =>
        rw [parse_comments_cons_reply_absent st r rest p hr hc] at hok
        exact absurd hok (by simp)
      | some c =>
        rw [parse_comments_cons_reply_present st r rest p c hr hc] at hok
        exact ih _ _ hok (closedReplies_reply_step hcl rfl)

theorem parse_comments_sorted (batch : List CommentRecord) :
    ∀ (st st' : ListComments), parse_comments st batch = .ok st' →
      SortedKeys st.comments → SortedKeys st'.comments := by
  induction batch with
  | nil =>
    intro st st' hok hs
    rw [parse_comments_nil] at hok
    rw [← Except.ok.inj hok]
    exact hs
  | cons r rest ih =>
    intro st st' hok hs
    cases hr : r.replies_to with
    | none =>
      rw [parse_comments_cons_root st r rest hr] at hok
      exact ih _ _ hok (sortedKeys_bInsert _ _ hs)
    | some p =>
      cases hc : aLookup p st.comments with
      | none =>
        rw [parse_comments_cons_reply_absent st r rest p hr hc] at hok
        exact absurd hok (by simp)
      | some c =>
        rw [parse_comments_cons_reply_present st r rest p c hr hc] at hok
        exact ih _ _ hok (sortedKeys_bInsert _ _ (sortedKeys_bModify _ _ hs))

theorem parse_comments_idsMatch (batch : List CommentRecord) :
    ∀ (st st' : ListComments), parse_comments st batch = .ok st' →
      IdsMatch st.comments → IdsMatch st'.comments := by
  induction batch with
  | nil =>
    intro st st' hok hi
    rw [parse_comments_nil] at hok
    rw [← Except.ok.inj hok]
    exact hi
  | cons r rest ih =>
    intro st st' hok hi
    cases hr : r.replies_to with
    | none =>
      rw [parse_comments_cons_root st r rest hr] at hok
      refine ih _ _ hok ?_
      intro p hp
      rcases mem_bInsert_weak hp with rfl | hp
      · rfl
      · exact hi p hp
    | some p =>
      cases hc : aLookup p st.comments with
      | none =>
        rw [parse_comments_cons_reply_absent st r rest p hr hc] at hok
        exact absurd hok (by simp)
      | some c =>
        rw [parse_comments_cons_reply_present st r rest p c hr hc] at hok
        refine ih _ _ hok ?_
        intro q hq
        rcases mem_bInsert_weak hq with rfl | hq
        · rfl
        · rcases mem_bModify_weak hq with hq | ⟨v, hv, hqv⟩
          · exact hi q hq
          · rw [hqv]
            exact hi (q.1, v) hv

/-- Any per-comment property that holds of freshly inserted comments and
is preserved by appending a child id to `replies` is a loader invariant. -/
theorem parse_comments_pred_inv (P : Comment → Prop)
    (hnew : ∀ (r : CommentRecord) (b : Bool), P (newComment r b))
    (hpush : ∀ (rid : CommentId) (c : Comment), P c → P { c with replies := c.replies ++ [rid] })
    (batch : List CommentRecord) :
    ∀ (st st' : ListComments), parse_comments st batch = .ok st' →
      (∀ p ∈ st.comments, P p.2) → ∀ p ∈ st'.comments, P p.2 := by
  induction batch with
  | nil =>
    intro st st' hok hP
    rw [parse_comments_nil] at hok
    rw [← Except.ok.inj hok]
    exact hP
  | cons r rest ih =>
    intro st st' hok hP
    cases hr : r.replies_to with
    | none =>
      rw [parse_comments_cons_root st r rest hr] at hok
      refine ih _ _ hok ?_
      intro p hp
      rcases mem_bInsert_weak hp with rfl | hp
      · exact hnew r false
      · exact hP p hp
    | some p =>
      cases hc : aLookup p st.comments with
      | none =>
        rw [parse_comments_cons_reply_absent st r rest p hr hc] at hok
        exact absurd hok (by simp)
      | some c =>
        rw [parse_comments_cons_reply_present st r rest p c hr hc] at hok
        refine ih _ _ hok ?_
        intro q hq
        rcases mem_bInsert_weak hq with rfl | hq
        · exact hnew r true
        · rcases mem_bModify_weak hq with hq | ⟨v, hv, hqv⟩
          · exact hP q hq
          · rw [hqv]
            exact hpush r.id v (hP (q.1, v) hv)

theorem parse_comments_ur_empty (batch : List CommentRecord) :
    ∀ (st st' : ListComments), parse_comments st batch = .ok st' →
      (∀ p ∈ st.comments, p.2.user_reactions = []) →
      ∀ p ∈ st'.comments, p.2.user_reactions = [] :=
  parse_comments_pred_inv (fun c => c.user_reactions = [])
    (fun _ _ => rfl) (fun _ _ h => h) batch

theorem parse_comments_reactions_empty (batch : List CommentRecord) :
    ∀ (st st' : ListComments), parse_comments st batch = .ok st' →
      (∀ p ∈ st.comments, p.2.reactions = []) →
      ∀ p ∈ st'.comments, p.2.reactions = [] :=
  parse_comments_pred_inv (fun c => c.reactions = [])
    (fun _ _ => rfl) (fun _ _ h => h) batch

/-- With no acting user, the aggregator never writes a `user_reactions`
entry, so emptiness of every stored list is preserved. -/
theorem parse_reactions_ur_empty (rs : List Reaction) :
    ∀ st : ListComments, st.current_user = none →
      (∀ p ∈ st.comments, p.2.user_reactions = []) →
      ∀ p ∈ (parse_reactions st rs).comments, p.2.user_reactions = [] := by
  induction rs with
  | nil => intro st _ hP; exact hP
  | cons r rs ih =>
    intro st hcu hP
    rw [parse_reactions_cons]
    refine ih _ ?_ ?_
    · rw [parseReactionStep_current_user]; exact hcu
    · intro p hp
      rw [parseReactionStep_comments, hcu] at hp
      cases hcl : aLookup r.comment_id st.comments with
      | none =>
        rw [hcl] at hp
        exact hP p hp
      | some c0 =>
        rw [hcl] at hp
        rcases mem_bModify_weak hp with hp | ⟨v, hv, hpv⟩
        · exact hP p hp
        · rw [hpv]
          exact hP (p.1, v) hv

theorem boundedRank_root_step {n : Nat} {d : CommentId → Nat} {m : List (CommentId × Comment)}
    {rid : CommentId} {c : Comment} (hs : SortedKeys m) (hbr : BoundedRank n d m)
    (hc : c.replies = []) :
    BoundedRank (n + 1) (Function.update d rid n) (bInsert rid c m) := by
  obtain ⟨hbd, hed⟩ := hbr
  constructor
  · intro k hk
    by_cases hkr : k = rid
    · rw [hkr, Function.update_same]
      exact Nat.lt_succ_self n
    · rw [Function.update_noteq hkr]
      rcases (mem_keysOf_bInsert k rid c m).mp hk with hk | hk
      · exact absurd hk hkr
      · exact Nat.lt_succ_of_lt (hbd k hk)
  · intro q hq k' hk'
    rcases mem_bInsert_sorted hs hq with rfl | ⟨hq, hq1r⟩
    · rw [hc] at hk'
      exact absurd hk' (List.not_mem_nil k')
    · have hold := hed q hq
      have hq1 : q.1 ∈ keysOf m := List.mem_map_of_mem Prod.fst hq
      rw [Function.update_noteq hq1r]
      by_cases hkr : k' = rid
      · rw [hkr, Function.update_same]
        exact hbd q.1 hq1
      · rw [Function.update_noteq hkr]
        exact hold k' hk'

theorem boundedRank_reply_step {n : Nat} {d : CommentId → Nat} {m : List (CommentId × Comment)}
    {rid pid : CommentId} {c : Comment} (hs : SortedKeys m) (hbr : BoundedRank n d m)
    (hc : c.replies = []) (hpid : pid ∈ keysOf m) :
    BoundedRank (n + 1) (Function.update d rid n)
      (bInsert rid c (bModify pid (fun q => { q with replies := q.replies ++ [rid] }) m)) := by
  obtain ⟨hbd, hed⟩ := hbr
  have hsm : SortedKeys (bModify pid (fun q => { q with replies := q.replies ++ [rid] }) m) :=
    sortedKeys_bModify _ _ hs
  constructor
  · intro k hk
    by_cases hkr : k = rid
    · rw [hkr, Function.update_same]
      exact Nat.lt_succ_self n
    · rw [Function.update_noteq hkr]
      rcases (mem_keysOf_bInsert k rid c _).mp hk with hk | hk
      · exact absurd hk hkr
      · rw [keysOf_bModify] at hk
        exact Nat.lt_succ_of_lt (hbd k hk)
  · intro q hq k' hk'
    rcases mem_bInsert_sorted hsm hq with rfl | ⟨hq, hq1r⟩
    · rw [hc] at hk'
      exact absurd hk' (List.not_mem_nil k')
    · rw [Function.update_noteq hq1r]
      rcases mem_bModify_sorted hs hq with ⟨hqm, _⟩ | ⟨v, hvm, hqv⟩
      · have hold := hed q hqm
        have hq1 : q.1 ∈ keysOf m := List.mem_map_of_mem Prod.fst hqm
        by_cases hkr : k' = rid
        · rw [hkr, Function.update_same]
          exact hbd q.1 hq1
        · rw [Function.update_noteq hkr]
          exact hold k' hk'
      · have hq2 : q.2 = { v with replies := v.replies ++ [rid] } := congrArg Prod.snd hqv
        have hq1 : q.1 = pid := congrArg Prod.fst hqv
        rw [hq2] at hk'
        simp only at hk'
        rcases List.mem_append.mp hk' with hk' | hk'
        · have hold := hed (pid, v) hvm
          by_cases hkr : k' = rid
          · rw [hkr, Function.update_same, hq1]
            exact hbd pid hpid
          · rw [Function.update_noteq hkr, hq1]
            exact hold k' hk'
        · rw [show k' = rid from by simpa using hk', Function.update_same, hq1]
          exact hbd pid hpid

/-- The loader preserves the existence of a strict bounded rank along
reply edges (children always rank strictly above their parent). -/
theorem parse_comments_ranked (batch : List CommentRecord) :
    ∀ (st st' : ListComments), parse_comments st batch = .ok st' →
      SortedKeys st.comments →
      (∃ n d, BoundedRank n d st.comments) →
      ∃ n d, BoundedRank n d st'.comments := by
  induction batch with
  | nil =>
    intro st st' hok _ hbr
    rw [parse_comments_nil] at hok
    rw [← Except.ok.inj hok]
    exact hbr
  | cons r rest ih =>
    intro st st' hok hs hbr
    obtain ⟨n, d, hnd⟩ := hbr
    cases hr : r.replies_to with
    | none =>
      rw [parse_comments_cons_root st r rest hr] at hok
      exact ih _ _ hok (sortedKeys_bInsert _ _ hs)
        ⟨n + 1, Function.update d r.id n, boundedRank_root_step hs hnd rfl⟩
    | some p =>
      cases hc : aLookup p st.comments with
      | none =>
        rw [parse_comments_cons_reply_absent st r rest p hr hc] at hok
        exact absurd hok (by simp)
      | some c =>
        rw [parse_comments_cons_reply_present st r rest p c hr hc] at hok
        have hpid : p ∈ keysOf st.comments := by
          rw [← aLookup_isSome_iff_mem_keysOf, hc]
          rfl
        exact ih _ _ hok (sortedKeys_bInsert _ _ (sortedKeys_bModify _ _ hs))
          ⟨n + 1, Function.update d r.id n, boundedRank_reply_step hs hnd rfl hpid⟩

/-! ## Serialization lemmas -/

theorem serialize_comment_zero (st : ListComments) (c : Comment) :
    serialize_comment st 0 c = .error SerErr.outOfFuel := rfl

theorem serialize_comment_succ (st : ListComments) (f : Nat) (c : Comment) :
    serialize_comment st (f + 1) c =
      match aLookup c.user_id st.users with
      | none =>
        .error (SerErr.http (HttpError.internalServerError
          ("Couldn't find a user with ID: " ++ c.user_id ++ ". Reference in comment: " ++ c.id)))
      | some user =>
        match serializeChildren st (serialize_comment st f) c.replies with
        | .error e => .error e
        | .ok js => .ok (CommentJson.mk c.id c.body user js c.reactions c.user_reactions) := rfl

theorem exCollect_ok_forall2 {α : Type} {xs : List (Except SerErr α)} {ys : List α}
    (h : exCollect xs = .ok ys) : List.Forall₂ (fun x y => x = .ok y) xs ys := by
  induction xs generalizing ys with
  | nil =>
    rw [show exCollect ([] : List (Except SerErr α)) = .ok [] from rfl] at h
    rw [← Except.ok.inj h]
    exact List.Forall₂.nil
  | cons x xs ih =>
    cases x with
    | error e => exact absurd h (by simp [exCollect])
    | ok a =>
      rw [show exCollect (Except.ok a :: xs)
          = (match exCollect xs with
             | .error e => .error e
             | .ok as_ => .ok (a :: as_)) from rfl] at h
      cases hxs : exCollect xs with
      | error e => rw [hxs] at h; exact absurd h (by simp)
      | ok as_ =>
        rw [hxs] at h
        rw [← Except.ok.inj h]
        exact List.Forall₂.cons rfl (ih hxs)

theorem exCollect_error_mem {α : Type} {xs : List (Except SerErr α)} {e : SerErr}
    (h : exCollect xs = .error e) : Except.error e ∈ xs := by
  induction xs with
  | nil => exact absurd h (by simp [exCollect])
  | cons x xs ih =>
    cases x with
    | error e' =>
      rw [show exCollect (Except.error e' :: xs) = .error e' from rfl] at h
      rw [show e' = e from Except.error.inj h]
      exact List.mem_cons_self _ _
    | ok a =>
      rw [show exCollect (Except.ok a :: xs)
          = (match exCollect xs with
             | .error e => .error e
             | .ok as_ => .ok (a :: as_)) from rfl] at h
      cases hxs : exCollect xs with
      | error e' =>
        rw [hxs] at h
        rw [show e' = e from Except.error.inj h] at hxs
        exact List.mem_cons_of_mem _ (ih hxs)
      | ok as_ => rw [hxs] at h; exact absurd h (by simp)

theorem serializeChildren_nil (st : ListComments) (recur : Comment → Except SerErr CommentJson) :
    serializeChildren st recur [] = .ok [] := rfl

theorem serializeChildren_cons (st : ListComments) (recur : Comment → Except SerErr CommentJson)
    (child_id : CommentId) (rest : List CommentId) :
    serializeChildren st recur (child_id :: rest) =
      match aLookup child_id st.comments with
      | none => .error SerErr.panicMissingChild
      | some child =>
        match recur child with
        | .error e => .error e
        | .ok j =>
          match serializeChildren st recur rest with
          | .error e => .error e
          | .ok js => .ok (j :: js) := rfl

theorem serializeChildren_cons_none {st : ListComments}
    {recur : Comment → Except SerErr CommentJson} {child_id : CommentId}
    (rest : List CommentId) (hch : aLookup child_id st.comments = none) :
    serializeChildren st recur (child_id :: rest) = .error SerErr.panicMissingChild := by
  rw [serializeChildren_cons, hch]

theorem serializeChildren_cons_some {st : ListComments}
    {recur : Comment → Except SerErr CommentJson} {child_id : CommentId} {ch : Comment}
    (rest : List CommentId) (hch : aLookup child_id st.comments = some ch) :
    serializeChildren st recur (child_id :: rest) =
      match recur ch with
      | .error e => .error e
      | .ok j =>
        match serializeChildren st recur rest with
        | .error e => .error e
        | .ok js => .ok (j :: js) := by
  rw [serializeChildren_cons, hch]

theorem serialize_comment_succ_user_none {st : ListComments} {f : Nat} {c : Comment}
    (hu : aLookup c.user_id st.users = none) :
    serialize_comment st (f + 1) c =
      .error (SerErr.http (HttpError.internalServerError
        ("Couldn't find a user with ID: " ++ c.user_id ++ ". Reference in comment: " ++ c.id))) := by
  rw [serialize_comment_succ, hu]

theorem serialize_comment_succ_user_some {st : ListComments} {f : Nat} {c : Comment}
    {u : UserJson} (hu : aLookup c.user_id st.users = some u) :
    serialize_comment st (f + 1) c =
      match serializeChildren st (serialize_comment st f) c.replies with
      | .error e => .error e
      | .ok js => .ok (CommentJson.mk c.id c.body u js c.reactions c.user_reactions) := by
  rw [serialize_comment_succ, hu]

theorem serializeChildren_ok_forall2 {st : ListComments}
    {recur : Comment → Except SerErr CommentJson} {ids : List CommentId}
    {js : List CommentJson} (h : serializeChildren st recur ids = .ok js) :
    List.Forall₂ (fun id j => ∃ ch, aLookup id st.comments = some ch ∧ recur ch = .ok j)
      ids js := by
  induction ids generalizing js with
  | nil =>
    rw [serializeChildren_nil] at h
    rw [← Except.ok.inj h]
    exact List.Forall₂.nil
  | cons id rest ih =>
    rw [serializeChildren_cons] at h
    split at h
    · exact absurd h (by simp)
    next ch hcl =>
      split at h
      · exact absurd h (by simp)
      next j hrec =>
        split at h
        · exact absurd h (by simp)
        next js' hrest =>
          rw [← Except.ok.inj h]
          exact List.Forall₂.cons ⟨ch, hcl, hrec⟩ (ih hrest)

theorem forall2_mem_right {α β : Type} {R : α → β → Prop} {l : List α} {l' : List β}
    (h : List.Forall₂ R l l') : ∀ b ∈ l', ∃ a ∈ l, R a b := by
  induction h with
  | nil => intro b hb; exact absurd hb (List.not_mem_nil b)
  | cons hR _ ih =>
    intro b hb
    rcases List.mem_cons.mp hb with rfl | hb
    · exact ⟨_, List.mem_cons_self _ _, hR⟩
    · obtain ⟨a, ha, hab⟩ := ih b hb
      exact ⟨a, List.mem_cons_of_mem _ ha, hab⟩

theorem forall2_mem_left {α β : Type} {R : α → β → Prop} {l : List α} {l' : List β}
    (h : List.Forall₂ R l l') : ∀ a ∈ l, ∃ b ∈ l', R a b := by
  induction h with
  | nil => intro a ha; exact absurd ha (List.not_mem_nil a)
  | cons hR _ ih =>
    intro a ha
    rcases List.mem_cons.mp ha with rfl | ha
    · exact ⟨_, List.mem_cons_self _ _, hR⟩
    · obtain ⟨b, hb, hab⟩ := ih a ha
      exact ⟨b, List.mem_cons_of_mem _ hb, hab⟩

theorem serialize_comment_ok_inv {st : ListComments} {f : Nat} {c : Comment} {j : CommentJson}
    (h : serialize_comment st f c = .ok j) :
    ∃ f', f = f' + 1 ∧ ∃ u, aLookup c.user_id st.users = some u ∧
      ∃ js, serializeChildren st (serialize_comment st f') c.replies = .ok js ∧
        j = CommentJson.mk c.id c.body u js c.reactions c.user_reactions := by
  cases f with
  | zero => exact absurd h (by simp [serialize_comment_zero])
  | succ f' =>
    rw [serialize_comment_succ] at h
    split at h
    · exact absurd h (by simp)
    next u hu =>
      split at h
      · exact absurd h (by simp)
      next js hsc =>
        exact ⟨f', rfl, u, hu, js, hsc, (Except.ok.inj h).symm⟩

theorem mem_rootComments {st : ListComments} {c : Comment} (hc : c ∈ rootComments st) :
    (∃ k, (k, c) ∈ st.comments) ∧ c.is_reply = false := by
  unfold rootComments at hc
  rw [List.mem_filter] at hc
  obtain ⟨hmem, hroot⟩ := hc
  rw [List.mem_map] at hmem
  obtain ⟨p, hp, hpc⟩ := hmem
  constructor
  · exact ⟨p.1, by rw [← hpc]; exact hp⟩
  · simpa using hroot

theorem rootComments_mem {st : ListComments} {k : CommentId} {c : Comment}
    (hmem : (k, c) ∈ st.comments) (hroot : c.is_reply = false) : c ∈ rootComments st := by
  unfold rootComments
  rw [List.mem_filter]
  constructor
  · exact List.mem_map_of_mem Prod.snd hmem
  · simp [hroot]

theorem serializeChildren_no_panic {st : ListComments}
    {recur : Comment → Except SerErr CommentJson} {ids : List CommentId}
    (hids : ∀ id ∈ ids, ∃ ch, aLookup id st.comments = some ch ∧
      recur ch ≠ .error SerErr.panicMissingChild) :
    serializeChildren st recur ids ≠ .error SerErr.panicMissingChild := by
  induction ids with
  | nil => rw [serializeChildren_nil]; simp
  | cons id rest ih =>
    obtain ⟨ch, hch, hne⟩ := hids id (List.mem_cons_self _ _)
    rw [serializeChildren_cons_some rest hch]
    cases hrec : recur ch with
    | error e =>
      intro hcontra
      exact hne (by rw [hrec, show e = SerErr.panicMissingChild from Except.error.inj hcontra])
    | ok j =>
      have ih' := ih (fun id' hid' => hids id' (List.mem_cons_of_mem _ hid'))
      cases hrest : serializeChildren st recur rest with
      | error e =>
        intro hcontra
        exact ih' (by rw [hrest, show e = SerErr.panicMissingChild from Except.error.inj hcontra])
      | ok js => simp

/-- Under the skeleton closedness invariant, the child lookup `.unwrap()`
never panics, whatever the fuel and the stored comment. -/
theorem serialize_comment_no_panic (st : ListComments) (hC : ClosedReplies st.comments) :
    ∀ (fuel : Nat) (k : CommentId) (c : Comment), (k, c) ∈ st.comments →
      serialize_comment st fuel c ≠ .error SerErr.panicMissingChild := by
  intro fuel
  induction fuel with
  | zero =>
    intro k c _
    rw [serialize_comment_zero]
    simp
  | succ f ih =>
    intro k c hmem
    cases hu : aLookup c.user_id st.users with
    | none =>
      rw [serialize_comment_succ_user_none hu]
      simp
    | some u =>
      rw [serialize_comment_succ_user_some hu]
      have hch : ∀ id ∈ c.replies, ∃ ch, aLookup id st.comments = some ch ∧
          serialize_comment st f ch ≠ .error SerErr.panicMissingChild := by
        intro id hid
        have := hC (k, c) hmem id hid
        cases hcl : aLookup id st.comments with
        | none => rw [hcl] at this; exact absurd this (by simp)
        | some ch => exact ⟨ch, rfl, fun hcp => (ih id ch (aLookup_eq_some_mem hcl)) hcp⟩
      cases hrest : serializeChildren st (serialize_comment st f) c.replies with
      | error e =>
        intro hcontra
        exact serializeChildren_no_panic hch
          (by rw [hrest, show e = SerErr.panicMissingChild from Except.error.inj hcontra])
      | ok js => simp

/-- The serializer as a whole never hits the `.unwrap()` panic on a
closed skeleton. -/
theorem serialize_no_panic (st : ListComments) (hC : ClosedReplies st.comments) :
    serialize st ≠ .error SerErr.panicMissingChild := by
  intro hcontra
  unfold serialize at hcontra
  have hmem := exCollect_error_mem hcontra
  rw [List.mem_map] at hmem
  obtain ⟨c, hc, hce⟩ := hmem
  obtain ⟨⟨k, hkc⟩, _⟩ := mem_rootComments hc
  exact serialize_comment_no_panic st hC _ k c hkc hce

theorem countP_le_countP_of_imp {α : Type} {l : List α} {p q : α → Bool}
    (hpq : ∀ a ∈ l, p a = true → q a = true) : l.countP p ≤ l.countP q := by
  induction l with
  | nil => simp
  | cons a l ih =>
    have ih' := ih (fun x hx => hpq x (List.mem_cons_of_mem _ hx))
    rw [List.countP_cons, List.countP_cons]
    by_cases hpa : p a = true
    · rw [if_pos hpa, if_pos (hpq a (List.mem_cons_self _ _) hpa)]
      omega
    · rw [if_neg hpa]
      by_cases hqa : q a = true
      · rw [if_pos hqa]; omega
      · rw [if_neg hqa]; omega

theorem countP_lt_countP_of_imp {α : Type} {l : List α} {p q : α → Bool}
    (hpq : ∀ a ∈ l, p a = true → q a = true) {a : α} (ha : a ∈ l)
    (hqa : q a = true) (hpa : ¬ p a = true) : l.countP p < l.countP q := by
  induction l with
  | nil => exact absurd ha (List.not_mem_nil a)
  | cons b l ih =>
    have hle : l.countP p ≤ l.countP q :=
      countP_le_countP_of_imp (fun x hx => hpq x (List.mem_cons_of_mem _ hx))
    rw [List.countP_cons, List.countP_cons]
    rcases List.mem_cons.mp ha with rfl | ha
    · rw [if_neg hpa, if_pos hqa]
      omega
    · have := ih (fun x hx => hpq x (List.mem_cons_of_mem _ hx)) ha
      by_cases hpb : p b = true
      · rw [if_pos hpb, if_pos (hpq b (List.mem_cons_self _ _) hpb)]
        omega
      · rw [if_neg hpb]
        by_cases hqb : q b = true
        · rw [if_pos hqb]; omega
        · rw [if_neg hqb]; omega

theorem serializeChildren_nice {st : ListComments}
    {recur : Comment → Except SerErr CommentJson} {ids : List CommentId}
    (hids : ∀ id ∈ ids, ∃ ch, aLookup id st.comments = some ch ∧ NiceRes (recur ch)) :
    NiceRes (serializeChildren st recur ids) := by
  induction ids with
  | nil =>
    left
    exact ⟨[], serializeChildren_nil st recur⟩
  | cons id rest ih =>
    obtain ⟨ch, hch, hnice⟩ := hids id (List.mem_cons_self _ _)
    rw [serializeChildren_cons_some rest hch]
    rcases hnice with ⟨j, hj⟩ | ⟨msg, hmsg⟩
    · rw [hj]
      rcases ih (fun id' hid' => hids id' (List.mem_cons_of_mem _ hid')) with
        ⟨js, hjs⟩ | ⟨msg, hmsg⟩
      · rw [hjs]
        left
        exact ⟨j :: js, rfl⟩
      · rw [hmsg]
        right
        exact ⟨msg, rfl⟩
    · rw [hmsg]
      right
      exact ⟨msg, rfl⟩

/-- Fuel sufficiency: with a strict rank along reply edges, a call on a
stored comment with fuel exceeding the number of higher-ranked keys can
only succeed or fail with `internal_server_error` — never run out of fuel
and never panic. -/
theorem serialize_comment_nice (st : ListComments) (d : CommentId → Nat)
    (hC : ClosedReplies st.comments)
    (hE : ∀ p ∈ st.comments, ∀ k' ∈ p.2.replies, d p.1 < d k') :
    ∀ (fuel : Nat) (k : CommentId) (c : Comment), aLookup k st.comments = some c →
      countAbove st.comments d k < fuel → NiceRes (serialize_comment st fuel c) := by
  intro fuel
  induction fuel with
  | zero =>
    intro k c _ hca
    exact absurd hca (Nat.not_lt_zero _)
  | succ f ih =>
    intro k c hkc hca
    cases hu : aLookup c.user_id st.users with
    | none =>
      rw [serialize_comment_succ_user_none hu]
      right
      exact ⟨_, rfl⟩
    | some u =>
      rw [serialize_comment_succ_user_some hu]
      have hmem : (k, c) ∈ st.comments := aLookup_eq_some_mem hkc
      have hch : ∀ id ∈ c.replies, ∃ ch, aLookup id st.comments = some ch ∧
          NiceRes (serialize_comment st f ch) := by
        intro id hid
        have hsome := hC (k, c) hmem id hid
        cases hcl : aLookup id st.comments with
        | none => rw [hcl] at hsome; exact absurd hsome (by simp)
        | some ch =>
          refine ⟨ch, rfl, ?_⟩
          have hdlt : d k < d id := hE (k, c) hmem id hid
          have hidk : id ∈ keysOf st.comments := by
            rw [← aLookup_isSome_iff_mem_keysOf, hcl]
            rfl
          have hlt : countAbove st.comments d id < countAbove st.comments d k := by
            unfold countAbove
            refine countP_lt_countP_of_imp ?_ hidk ?_ ?_
            · intro x _ hx
              rw [decide_eq_true_eq] at hx
              rw [decide_eq_true_eq]
              exact hdlt.trans hx
            · rw [decide_eq_true_eq]
              exact hdlt
            · rw [decide_eq_true_eq]
              exact lt_irrefl _
          exact ih id ch hcl (by omega)
      rcases serializeChildren_nice hch with ⟨js, hjs⟩ | ⟨msg, hmsg⟩
      · rw [hjs]
        left
        exact ⟨_, rfl⟩
      · rw [hmsg]
        right
        exact ⟨msg, rfl⟩

/-- If `serialize` succeeds, every walked comment was serialized
successfully at some positive fuel. -/
theorem serialize_ok_walked {st : ListComments} {out : List CommentJson}
    (hnd : (keysOf st.comments).Nodup) (hok : serialize st = .ok out) :
    ∀ k, Walked st.comments k → ∀ c, aLookup k st.comments = some c →
      ∃ f j, serialize_comment st (f + 1) c = .ok j := by
  intro k hw
  induction hw with
  | root k0 c0 hm hroot =>
    intro c hkc
    have hc0 : aLookup k0 st.comments = some c0 := (mem_iff_aLookup_of_nodup hnd).mp hm
    have hcc : c = c0 := by
      rw [hc0] at hkc
      exact (Option.some.inj hkc).symm
    subst hcc
    have hcroot : c ∈ rootComments st := rootComments_mem hm hroot
    unfold serialize at hok
    have hall := exCollect_ok_forall2 hok
    obtain ⟨j, hj, hcj⟩ := forall2_mem_left hall _
      (List.mem_map_of_mem (serialize_comment st st.comments.length) hcroot)
    cases hf : st.comments.length with
    | zero =>
      rw [hf] at hcj
      rw [serialize_comment_zero] at hcj
      exact absurd hcj (by simp)
    | succ f =>
      rw [hf] at hcj
      exact ⟨f, j, hcj⟩
  | child k0 c0 k' _ hm hk' ih =>
    intro c hkc
    have hc0 : aLookup k0 st.comments = some c0 := (mem_iff_aLookup_of_nodup hnd).mp hm
    obtain ⟨f, j, hj⟩ := ih c0 hc0
    obtain ⟨f', hf', u, _, js, hjs, _⟩ := serialize_comment_ok_inv hj
    rw [show f' = f from Nat.succ.inj hf'.symm] at hjs
    have hall := serializeChildren_ok_forall2 hjs
    obtain ⟨j', _, ch, hch, hchok⟩ := forall2_mem_left hall k' hk'
    have hcch : c = ch := by
      rw [hch] at hkc
      exact (Option.some.inj hkc).symm
    subst hcch
    cases hf0 : f with
    | zero =>
      rw [hf0] at hchok
      rw [serialize_comment_zero] at hchok
      exact absurd hchok (by simp)
    | succ f1 =>
      rw [hf0] at hchok
      exact ⟨f1, j', hchok⟩

theorem serialize_comment_ok_fields {st : ListComments} {f : Nat} {c : Comment}
    {j : CommentJson} (h : serialize_comment st f c = .ok j) :
    j.id = c.id ∧ j.body = c.body ∧ j.reactions = c.reactions ∧
      j.user_reactions = c.user_reactions := by
  obtain ⟨f', _, u, _, js, _, hj⟩ := serialize_comment_ok_inv h
  rw [hj]
  exact ⟨rfl, rfl, rfl, rfl⟩

/-- When every stored comment has an empty `user_reactions` list, so does
every node of any successfully serialized subtree. -/
theorem serialize_comment_allnodes_ur (st : ListComments)
    (hm : ∀ p ∈ st.comments, p.2.user_reactions = []) :
    ∀ (f : Nat) (c : Comment) (j : CommentJson), c.user_reactions = [] →
      serialize_comment st f c = .ok j →
      AllNodes (fun j' => j'.user_reactions = []) j := by
  intro f
  induction f with
  | zero =>
    intro c j _ h
    rw [serialize_comment_zero] at h
    exact absurd h (by simp)
  | succ f ih =>
    intro c j hcur h
    obtain ⟨f', hf', u, hu, js, hjs, hj⟩ := serialize_comment_ok_inv h
    rw [show f' = f from Nat.succ.inj hf'.symm] at hjs
    refine AllNodes.node j ?_ ?_
    · rw [hj]
      exact hcur
    · intro j' hj'
      rw [hj] at hj'
      have hall := serializeChildren_ok_forall2 hjs
      obtain ⟨id, _, ch, hch, hchok⟩ := forall2_mem_right hall j' (by simpa using hj')
      have hchur : ch.user_reactions = [] := hm (id, ch) (aLookup_eq_some_mem hch)
      exact ih ch j' hchur hchok

theorem serialize_allnodes_ur {st : ListComments} {out : List CommentJson}
    (hm : ∀ p ∈ st.comments, p.2.user_reactions = [])
    (hok : serialize st = .ok out) :
    ∀ j ∈ out, AllNodes (fun j' => j'.user_reactions = []) j := by
  intro j hj
  unfold serialize at hok
  have hall := exCollect_ok_forall2 hok
  obtain ⟨x, hx, hxy⟩ := forall2_mem_right hall j hj
  rw [List.mem_map] at hx
  obtain ⟨c, hc, hcx⟩ := hx
  obtain ⟨⟨k, hkc⟩, _⟩ := mem_rootComments hc
  have hcur : c.user_reactions = [] := hm (k, c) hkc
  rw [← hcx] at hxy
  exact serialize_comment_allnodes_ur st hm _ c j hcur hxy

theorem forall2_children_map_id {st : ListComments} (hI : IdsMatch st.comments)
    {ids : List CommentId} {js : List CommentJson}
    (h : List.Forall₂
      (fun id j' => ∃ ch, aLookup id st.comments = some ch ∧
        ∃ f'', serialize_comment st f'' ch = .ok j') ids js) :
    js.map CommentJson.id = ids := by
  induction h with
  | nil => rfl
  | cons hR _ ihm =>
    obtain ⟨ch, hch, _, hchok⟩ := hR
    rw [List.map_cons, ihm, (serialize_comment_ok_fields hchok).1,
      hI (_, ch) (aLookup_eq_some_mem hch)]

theorem serialize_comment_ok_children {st : ListComments} {f : Nat} {c : Comment}
    {j : CommentJson} (hI : IdsMatch st.comments) (h : serialize_comment st f c = .ok j) :
    j.replies.map CommentJson.id = c.replies ∧ (c.replies = [] → j.replies = []) ∧
      List.Forall₂
        (fun id j' => ∃ ch, aLookup id st.comments = some ch ∧
          ∃ f', serialize_comment st f' ch = .ok j')
        c.replies j.replies := by
  obtain ⟨f', _, u, hu, js, hjs, hj⟩ := serialize_comment_ok_inv h
  have hall := serializeChildren_ok_forall2 hjs
  have hall' : List.Forall₂
      (fun id j' => ∃ ch, aLookup id st.comments = some ch ∧
        ∃ f'', serialize_comment st f'' ch = .ok j') c.replies js := by
    refine hall.imp ?_
    intro id j' ⟨ch, hch, hchok⟩
    exact ⟨ch, hch, f', hchok⟩
  have hmap : js.map CommentJson.id = c.replies := forall2_children_map_id hI hall'
  refine ⟨by rw [hj]; exact hmap, ?_, by rw [hj]; exact hall'⟩
  intro h0
  rw [hj]
  show js = []
  rw [h0] at hmap
  exact List.map_eq_nil.mp hmap

theorem forall2_roots_map_id {st : ListComments} {cs : List Comment} {out : List CommentJson}
    (h : List.Forall₂ (fun c j => serialize_comment st st.comments.length c = .ok j) cs out) :
    out.map CommentJson.id = cs.map Comment.id := by
  induction h with
  | nil => rfl
  | cons hR _ ihm =>
    rw [List.map_cons, List.map_cons, ihm, (serialize_comment_ok_fields hR).1]

theorem rootComments_map_id (m : List (CommentId × Comment)) (hI : IdsMatch m) :
    ((m.map Prod.snd).filter (fun c => !c.is_reply)).map Comment.id =
      (m.filter (fun p => !p.2.is_reply)).map Prod.fst := by
  induction m with
  | nil => rfl
  | cons p m ih =>
    have hI' : IdsMatch m := fun q hq => hI q (List.mem_cons_of_mem _ hq)
    rw [List.map_cons, List.filter_cons, List.filter_cons]
    cases hrep : p.2.is_reply with
    | true =>
      rw [if_neg (by simp [hrep]), if_neg (by simp [hrep])]
      exact ih hI'
    | false =>
      rw [if_pos (by simp [hrep]), if_pos (by simp [hrep]), List.map_cons, List.map_cons,
        ih hI', hI p (List.mem_cons_self _ _)]

/-- If serialization succeeds, the mapped roots line up with the output
and the top-level ids are exactly the non-reply keys in map order. -/
theorem serialize_ok_top {st : ListComments} {out : List CommentJson}
    (hI : IdsMatch st.comments) (hok : serialize st = .ok out) :
    out.map CommentJson.id = (st.comments.filter (fun p => !p.2.is_reply)).map Prod.fst ∧
      List.Forall₂ (fun c j => serialize_comment st st.comments.length c = .ok j)
        (rootComments st) out := by
  unfold serialize at hok
  have hall := exCollect_ok_forall2 hok
  have hall2 : List.Forall₂ (fun c j => serialize_comment st st.comments.length c = .ok j)
      (rootComments st) out := by
    refine List.forall₂_iff_get.mpr ?_
    obtain ⟨hlen, hget⟩ := List.forall₂_iff_get.mp hall
    rw [List.length_map] at hlen
    refine ⟨hlen, ?_⟩
    intro i h1 h2
    have := hget i (by rw [List.length_map]; exact h1) h2
    rw [List.get_map] at this
    exact this
  constructor
  · rw [forall2_roots_map_id hall2]
    exact rootComments_map_id st.comments hI
  · exact hall2

theorem check_current_user_ok_comments {find : UserId → Except String (Option User)}
    {delim : String} {payload : Except String (Option String)} {st st1 : ListComments}
    (h : check_current_user find delim payload st = .ok st1) : st1.comments = st.comments := by
  unfold check_current_user at h
  cases payload with
  | error e => exact absurd h (by simp)
  | ok po =>
    cases po with
    | none => rw [← Except.ok.inj h]
    | some tok =>
      replace h : (match fetch_current_user find delim tok with
        | Except.ok user => Except.ok { st with current_user := some user }
        | Except.error e => (Except.error e : Except HttpError ListComments)) = Except.ok st1 := h
      cases hf : fetch_current_user find delim tok with
      | ok u =>
        rw [hf] at h
        rw [← Except.ok.inj h]
      | error e =>
        rw [hf] at h
        exact absurd h (by simp)

/-! ## Small auxiliary lemmas for the claim statements -/

theorem countP_replicate {α : Type} (p : α → Bool) (a : α) (n : Nat) :
    (List.replicate n a).countP p = if p a then n else 0 := by
  induction n with
  | zero => simp
  | succ n ih =>
    rw [List.replicate_succ, List.countP_cons, ih]
    by_cases hpa : p a = true
    · rw [if_pos hpa, if_pos hpa, if_pos hpa]
    · rw [if_neg hpa, if_neg hpa, if_neg hpa]

theorem mem_map_filter_iff (rs : List Reaction) (p : Reaction → Bool) (t : ReactionType) :
    t ∈ (rs.filter p).map Reaction.reaction_type ↔
      ∃ r ∈ rs, p r = true ∧ r.reaction_type = t := by
  rw [List.mem_map]
  constructor
  · rintro ⟨r, hr, ht⟩
    rw [List.mem_filter] at hr
    exact ⟨r, hr.1, hr.2, ht⟩
  · rintro ⟨r, hr, hp, ht⟩
    exact ⟨r, List.mem_filter.mpr ⟨hr, hp⟩, ht⟩

/-! ## Claim C2 -/

/-- C2 counterexample: with `2 ^ 16` records all targeting `(c1, like)`
on a skeleton containing `c1`, the stored count is `0`, not `65536`: the
claim "the resulting count equals the number of input records targeting C
with type T" fails at this input (the `u16` tally wraps). -/
theorem C2_counterexample :
    (aLookup "c1" wStateAnon.comments).isSome = true ∧
    (List.replicate 65536 wLikeByU2).countP (matchesCT "c1" "like") = 65536 ∧
    countOf (parse_reactions wStateAnon (List.replicate 65536 wLikeByU2)).comments
      "c1" "like" = 0 ∧
    countOf (parse_reactions wStateAnon (List.replicate 65536 wLikeByU2)).comments
      "c1" "like" ≠ 65536 := by
  have hk : (aLookup "c1" wStateAnon.comments).isSome = true := by decide
  have hcp : (List.replicate 65536 wLikeByU2).countP (matchesCT "c1" "like") = 65536 := by
    rw [countP_replicate]
    rw [if_pos (by decide)]
  have h0 : countOf wStateAnon.comments "c1" "like" = 0 := by decide
  have hlt : countOf wStateAnon.comments "c1" "like" < reactionModulus := by
    rw [h0]; decide
  have hcount := countOf_parse_reactions (List.replicate 65536 wLikeByU2)
    wStateAnon "c1" "like" hk hlt
  rw [h0, hcp] at hcount
  have hmod : (0 + 65536) % reactionModulus = 0 := by decide
  rw [hmod] at hcount
  exact ⟨hk, hcp, hcount, by rw [hcount]; omega⟩

/-- C2 (amended): for a comment present in the skeleton whose `(C, T)`
tally starts at zero, the resulting count is the number of matching
records *modulo* `2 ^ 16` — hence exactly that number whenever it is
below `2 ^ 16` — and the count is the same for every permutation of the
input records. -/
theorem C2_tally_mod_and_permutation (st : ListComments) (rs : List Reaction)
    (k : CommentId) (t : ReactionType)
    (hk : (aLookup k st.comments).isSome = true)
    (h0 : countOf st.comments k t = 0) :
    countOf (parse_reactions st rs).comments k t =
      rs.countP (matchesCT k t) % reactionModulus ∧
    (rs.countP (matchesCT k t) < reactionModulus →
      countOf (parse_reactions st rs).comments k t = rs.countP (matchesCT k t)) ∧
    (∀ rs₂, rs.Perm rs₂ →
      countOf (parse_reactions st rs₂).comments k t =
        countOf (parse_reactions st rs).comments k t) := by
  have hlt : countOf st.comments k t < reactionModulus := by rw [h0]; decide
  have h1 := countOf_parse_reactions rs st k t hk hlt
  rw [h0, Nat.zero_add] at h1
  refine ⟨h1, ?_, ?_⟩
  · intro hsmall
    rw [h1]
    exact Nat.mod_eq_of_lt hsmall
  · intro rs₂ hperm
    have h2 := countOf_parse_reactions rs₂ st k t hk hlt
    rw [h0, Nat.zero_add] at h2
    rw [h1, h2, hperm.countP_eq]

/-- C2 witness: two likes and one dislike on `c1` plus a stray record;
the `(c1, like)` tally is `2` and survives a permutation. -/
theorem C2_tally_mod_and_permutation_witness :
    (aLookup "c1" wStateAnon.comments).isSome = true ∧
    countOf wStateAnon.comments "c1" "like" = 0 ∧
    countOf (parse_reactions wStateAnon [wLikeByU2, wStray, wLikeByU1]).comments "c1" "like" =
      [wLikeByU2, wStray, wLikeByU1].countP (matchesCT "c1" "like") % reactionModulus :=
  ⟨by decide, by decide,
    (C2_tally_mod_and_permutation wStateAnon [wLikeByU2, wStray, wLikeByU1] "c1" "like"
      (by decide) (by decide)).1⟩

/-! ## Claim C10 -/

/-- C10: `ReactionCount` is `u16`: starting from a fresh tally, the
stored count is the number of matching records modulo `2 ^ 16`; it equals
the true number exactly when that number is below `2 ^ 16`, and with
`2 ^ 16` or more matching records the wrapped count disagrees with the
true number. -/
theorem C10_reaction_count_u16 (st : ListComments) (rs : List Reaction)
    (k : CommentId) (t : ReactionType)
    (hk : (aLookup k st.comments).isSome = true)
    (h0 : countOf st.comments k t = 0) :
    reactionModulus = 2 ^ 16 ∧
    countOf (parse_reactions st rs).comments k t = rs.countP (matchesCT k t) % 2 ^ 16 ∧
    (countOf (parse_reactions st rs).comments k t = rs.countP (matchesCT k t) →
      rs.countP (matchesCT k t) < 2 ^ 16) ∧
    (2 ^ 16 ≤ rs.countP (matchesCT k t) →
      countOf (parse_reactions st rs).comments k t ≠ rs.countP (matchesCT k t)) := by
  have hlt : countOf st.comments k t < reactionModulus := by rw [h0]; decide
  have h1 := countOf_parse_reactions rs st k t hk hlt
  rw [h0, Nat.zero_add] at h1
  have hmod : rs.countP (matchesCT k t) % reactionModulus = rs.countP (matchesCT k t) % 2 ^ 16 :=
    rfl
  refine ⟨rfl, by rw [h1, hmod], ?_, ?_⟩
  · intro heq
    have hbound : rs.countP (matchesCT k t) % 2 ^ 16 < 2 ^ 16 :=
      Nat.mod_lt _ (by norm_num)
    rw [h1, hmod] at heq
    omega
  · intro hge heq
    have hbound : rs.countP (matchesCT k t) % 2 ^ 16 < 2 ^ 16 :=
      Nat.mod_lt _ (by norm_num)
    rw [h1, hmod] at heq
    omega

/-- C10 witness: the wrap at `2 ^ 16` on a concrete batch of `65537`
matching records leaves a stored count of `1`. -/
theorem C10_reaction_count_u16_witness :
    (aLookup "c1" wStateAnon.comments).isSome = true ∧
    countOf wStateAnon.comments "c1" "like" = 0 ∧
    countOf (parse_reactions wStateAnon (List.replicate 65537 wLikeByU2)).comments "c1" "like" =
      (List.replicate 65537 wLikeByU2).countP (matchesCT "c1" "like") % 2 ^ 16 := by
  refine ⟨by decide, by decide, ?_⟩
  exact (C10_reaction_count_u16 wStateAnon (List.replicate 65537 wLikeByU2) "c1" "like"
    (by decide) (by decide)).2.1

/-! ## Claim C3 -/

/-- C3: with an acting user `u`, the `user_reactions` list stored for a
skeleton comment `k` (starting empty) is exactly the reaction types of
the records targeting `k` with `u`'s id, in input order: it contains `T`
iff some matching record has type `T`, and it keeps one entry per
matching record (duplicates preserved, not deduplicated). -/
theorem C3_user_reaction_list (st : ListComments) (rs : List Reaction)
    (k : CommentId) (u : User) (c : Comment)
    (hcu : st.current_user = some u)
    (hkc : aLookup k st.comments = some c)
    (h0 : c.user_reactions = []) :
    userReactionsOf (parse_reactions st rs).comments k =
      (rs.filter (matchesCU k u.id)).map Reaction.reaction_type ∧
    (∀ t, t ∈ userReactionsOf (parse_reactions st rs).comments k ↔
      ∃ r ∈ rs, r.comment_id = k ∧ r.user_id = u.id ∧ r.reaction_type = t) ∧
    (userReactionsOf (parse_reactions st rs).comments k).length =
      (rs.filter (matchesCU k u.id)).length := by
  have hk : (aLookup k st.comments).isSome = true := by rw [hkc]; rfl
  have h1 := userReactionsOf_parse_reactions rs st k u hcu hk
  have h2 : userReactionsOf st.comments k = [] := by
    rw [userReactionsOf_eq, hkc]
    simpa using h0
  rw [h2, List.nil_append] at h1
  refine ⟨h1, ?_, ?_⟩
  · intro t
    rw [h1, mem_map_filter_iff]
    constructor
    · rintro ⟨r, hr, hm, ht⟩
      obtain ⟨hc, hu⟩ := matchesCU_eq_true.mp hm
      exact ⟨r, hr, hc, hu, ht⟩
    · rintro ⟨r, hr, hc, hu, ht⟩
      exact ⟨r, hr, matchesCU_eq_true.mpr ⟨hc, hu⟩, ht⟩
  · rw [h1, List.length_map]

/-- C3 witness: `u1` reacts twice with `like` (among other records); the
stored list is `[like, like]` — duplicates preserved. -/
theorem C3_user_reaction_list_witness :
    wStateAuth.current_user = some wUser ∧
    aLookup "c1" wStateAuth.comments = some wComment1 ∧
    wComment1.user_reactions = [] ∧
    userReactionsOf (parse_reactions wStateAuth [wLikeByU1, wLikeByU2, wStray, wLikeByU1]).comments
        "c1" =
      ([wLikeByU1, wLikeByU2, wStray, wLikeByU1].filter (matchesCU "c1" wUser.id)).map
        Reaction.reaction_type :=
  ⟨rfl, rfl, rfl,
    (C3_user_reaction_list wStateAuth [wLikeByU1, wLikeByU2, wStray, wLikeByU1] "c1" wUser
      wComment1 rfl rfl rfl).1⟩

/-! ## Claim C4 -/

/-- C4: reaction records whose target comment id is absent from the
skeleton are silently dropped — the aggregator state (tallies, user
lists, everything) is identical to running on the filtered batch, and no
error is possible; `fetch_reactions` fails, with `internal_server_error`,
exactly when the underlying fetch fails. -/
theorem C4_unknown_targets_dropped (st : ListComments) (rs : List Reaction) :
    parse_reactions st rs =
      parse_reactions st (rs.filter (fun r => (aLookup r.comment_id st.comments).isSome)) ∧
    (∀ rs', fetch_reactions (.ok rs') st = .ok (parse_reactions st rs')) ∧
    (∀ err, fetch_reactions (.error err) st =
      .error (HttpError.internalServerError err)) ∧
    (∀ fetched e, fetch_reactions fetched st = .error e →
      ∃ msg, fetched = .error msg ∧ e = HttpError.internalServerError msg) := by
  refine ⟨parse_reactions_filter_present rs st, fun _ => rfl, fun _ => rfl, ?_⟩
  intro fetched e h
  cases fetched with
  | ok rs' =>
    exact absurd h (by simp [fetch_reactions])
  | error msg =>
    refine ⟨msg, rfl, ?_⟩
    rw [show fetch_reactions (.error msg) st
        = .error (HttpError.internalServerError msg) from rfl] at h
    exact (Except.error.inj h).symm

/-- C4 witness: a stray record among the batch changes nothing relative
to the filtered batch, on a concrete state. -/
theorem C4_unknown_targets_dropped_witness :
    parse_reactions wStateAnon [wLikeByU2, wStray] =
      parse_reactions wStateAnon
        ([wLikeByU2, wStray].filter (fun r => (aLookup r.comment_id wStateAnon.comments).isSome)) ∧
    fetch_reactions (.error "boom") wStateAnon =
      .error (HttpError.internalServerError "boom") :=
  ⟨(C4_unknown_targets_dropped wStateAnon [wLikeByU2, wStray]).1,
    (C4_unknown_targets_dropped wStateAnon [wLikeByU2, wStray]).2.2.1 "boom"⟩

/-! ## Claim C5 -/

/-- C5: with no acting user and a skeleton whose `user_reactions` lists
start empty, after aggregation every stored list is still empty, every
successfully serialized node carries an empty `user_reactions` list, and
every per-comment tally equals the tally the same batches produce under
any acting user. -/
theorem C5_anonymous_request (st : ListComments) (rs : List Reaction)
    (hcu : st.current_user = none)
    (hur : ∀ p ∈ st.comments, p.2.user_reactions = []) :
    (∀ k c, aLookup k (parse_reactions st rs).comments = some c → c.user_reactions = []) ∧
    (∀ (u : User) (k : CommentId) (t : ReactionType),
      countOf (parse_reactions { st with current_user := some u } rs).comments k t =
        countOf (parse_reactions st rs).comments k t) ∧
    (∀ out, serialize (parse_reactions st rs) = .ok out →
      ∀ j ∈ out, AllNodes (fun j' => j'.user_reactions = []) j) := by
  have hmem := parse_reactions_ur_empty rs st hcu hur
  refine ⟨?_, ?_, ?_⟩
  · intro k c hkc
    exact hmem (k, c) (aLookup_eq_some_mem hkc)
  · intro u k t
    exact countOf_parse_reactions_user_irrelevant rs
      { st with current_user := some u } st rfl k t
  · intro out hok
    exact serialize_allnodes_ur hmem hok

/-- C5 witness: anonymous aggregation of two likes leaves `c1`'s user
list empty and its `like` tally equal to the authenticated run's tally. -/
theorem C5_anonymous_request_witness :
    wStateAnon.current_user = none ∧
    (∀ p ∈ wStateAnon.comments, p.2.user_reactions = []) ∧
    (∀ k c, aLookup k (parse_reactions wStateAnon [wLikeByU1, wLikeByU2]).comments = some c →
      c.user_reactions = []) ∧
    countOf (parse_reactions { wStateAnon with current_user := some wUser }
        [wLikeByU1, wLikeByU2]).comments "c1" "like" =
      countOf (parse_reactions wStateAnon [wLikeByU1, wLikeByU2]).comments "c1" "like" :=
  ⟨rfl, by decide,
    (C5_anonymous_request wStateAnon [wLikeByU1, wLikeByU2] rfl (by decide)).1,
    (C5_anonymous_request wStateAnon [wLikeByU1, wLikeByU2] rfl (by decide)).2.1
      wUser "c1" "like"⟩

/-! ## Claim C1 -/

/-- C1: if some record of the batch names a reply-target that is not the
id of any record of the batch, the Comment Loader fails with
`internal_server_error` (from the empty map it starts with), and the full
pipeline never produces a tree for that request. -/
theorem C1_missing_parent_rejected (batch : List CommentRecord)
    (hdangling : ∃ r ∈ batch, ∃ p, r.replies_to = some p ∧
      p ∉ batch.map CommentRecord.id) :
    (∀ st : ListComments, st.comments = [] →
      ∃ msg, fetch_comments (.ok batch) st = .error (HttpError.internalServerError msg)) ∧
    (∀ find delim payload usersFetch reactionsFetch (out : List CommentJson),
      listCommentsPipeline find delim payload (.ok batch) usersFetch reactionsFetch ≠
        .ok out) := by
  have hpart1 : ∀ st : ListComments, st.comments = [] →
      ∃ msg, fetch_comments (.ok batch) st = .error (HttpError.internalServerError msg) := by
    intro st hst
    rw [show fetch_comments (.ok batch) st = parse_comments st batch from rfl]
    cases hres : parse_comments st batch with
    | ok st' =>
      exfalso
      obtain ⟨r, hr, p, hp, hnot⟩ := hdangling
      rcases parse_comments_ok_targets batch st st' hres r hr p hp with hs | hs
      · rw [hst] at hs
        exact absurd hs (by simp [aLookup])
      · exact hnot hs
    | error e =>
      obtain ⟨msg, hmsg⟩ := parse_comments_error_internal batch st e hres
      exact ⟨msg, by rw [hmsg]⟩
  refine ⟨hpart1, ?_⟩
  intro find delim payload usersFetch reactionsFetch out h
  unfold listCommentsPipeline at h
  cases hc1 : check_current_user find delim payload ListComments.new with
  | error e =>
    rw [hc1] at h
    exact absurd h (by simp)
  | ok st1 =>
    rw [hc1] at h
    replace h : (match fetch_comments (.ok batch) st1 with
      | .error e => (.error (.http e) : Except SerErr (List CommentJson))
      | .ok st2 =>
        match fetch_users usersFetch st2 with
        | .error e => .error (.http e)
        | .ok st3 =>
          match fetch_reactions reactionsFetch st3 with
          | .error e => .error (.http e)
          | .ok st4 => serialize st4) = .ok out := h
    have hst1 : st1.comments = [] := by
      rw [check_current_user_ok_comments hc1]
      rfl
    obtain ⟨msg, hmsg⟩ := hpart1 st1 hst1
    rw [hmsg] at h
    exact absurd h (by simp)

/-- C1 witness: a batch whose second record replies to an id `zz` that no
record of the batch carries. -/
theorem C1_missing_parent_rejected_witness :
    (∃ r ∈ [({ id := "c1", body := "hi", user_id := "u1", replies_to := none } : CommentRecord),
        { id := "c2", body := "oops", user_id := "u2", replies_to := some "zz" }],
      ∃ p, r.replies_to = some p ∧
        p ∉ [({ id := "c1", body := "hi", user_id := "u1", replies_to := none } : CommentRecord),
          { id := "c2", body := "oops", user_id := "u2", replies_to := some "zz" }].map
            CommentRecord.id) ∧
    ∃ msg, fetch_comments
        (.ok [({ id := "c1", body := "hi", user_id := "u1", replies_to := none } : CommentRecord),
          { id := "c2", body := "oops", user_id := "u2", replies_to := some "zz" }])
        ListComments.new =
      .error (HttpError.internalServerError msg) :=
  ⟨by decide,
    (C1_missing_parent_rejected _ (by decide)).1 ListComments.new rfl⟩

/-! ## Claim C9 -/

/-- C9: after the loader succeeds from an empty map, every id stored in
any `replies` list is a key of the comments map, so the child lookup in
`serialize_comment` always finds a comment: the modelled `.unwrap()`
panic (`SerErr.panicMissingChild`) is unreachable for any users map,
acting user and fuel. -/
theorem C9_reply_links_closed (batch : List CommentRecord) (st st' : ListComments)
    (hok : parse_comments st batch = .ok st') (hst : st.comments = []) :
    (∀ k c, aLookup k st'.comments = some c →
      ∀ k' ∈ c.replies, (aLookup k' st'.comments).isSome = true) ∧
    (∀ (users : List (UserId × UserJson)) (cu : Option User) (fuel : Nat)
        (k : CommentId) (c : Comment), (k, c) ∈ st'.comments →
      serialize_comment { comments := st'.comments, users := users, current_user := cu }
        fuel c ≠ .error SerErr.panicMissingChild) ∧
    (∀ (users : List (UserId × UserJson)) (cu : Option User),
      serialize { comments := st'.comments, users := users, current_user := cu } ≠
        .error SerErr.panicMissingChild) := by
  have hC : ClosedReplies st'.comments := by
    refine parse_comments_closed batch st st' hok ?_
    rw [hst]
    intro p hp
    exact absurd hp (List.not_mem_nil p)
  refine ⟨?_, ?_, ?_⟩
  · intro k c hkc k' hk'
    exact hC (k, c) (aLookup_eq_some_mem hkc) k' hk'
  · intro users cu fuel k c hmem
    exact serialize_comment_no_panic
      { comments := st'.comments, users := users, current_user := cu } hC fuel k c hmem
  · intro users cu
    exact serialize_no_panic
      { comments := st'.comments, users := users, current_user := cu } hC

/-- Deciding the (otherwise irreducible) `String` order via the
character lists. -/
theorem string_lt {s t : String} (h : s.toList < t.toList) : s < t :=
  String.lt_iff_toList_lt.mpr h

theorem bInsert_cons_gt {α : Type} {k k' : String} (hlt : k' < k) (v : α) (v' : α)
    (m : List (String × α)) :
    bInsert k v ((k', v') :: m) = (k', v') :: bInsert k v m := by
  conv_lhs => unfold bInsert
  rw [if_neg (by exact fun h => lt_asymm hlt h), if_neg (ne_of_gt hlt)]

theorem parse_comments_w9 :
    parse_comments ListComments.new [w9r1, w9r2] = .ok w9skel := by
  rw [parse_comments_cons_root ListComments.new w9r1 [w9r2] rfl]
  rw [parse_comments_cons_reply_present _ w9r2 [] "c1" (newComment w9r1 false) rfl (by decide)]
  rw [parse_comments_nil]
  have hmod : bModify "c1" (fun q => { q with replies := q.replies ++ [w9r2.id] })
      (bInsert w9r1.id (newComment w9r1 false) ListComments.new.comments) = [("c1", w9c1)] := by
    decide
  have hins : bInsert w9r2.id (newComment w9r2 true) [("c1", w9c1)] =
      [("c1", w9c1), ("c2", w9c2)] := by
    rw [show w9r2.id = "c2" from rfl, bInsert_cons_gt (string_lt (by decide))]
    rfl
  rw [show (bInsert w9r2.id (newComment w9r2 true)
      (bModify "c1" (fun q => { q with replies := q.replies ++ [w9r2.id] })
        (bInsert w9r1.id (newComment w9r1 false) ListComments.new.comments))) =
      [("c1", w9c1), ("c2", w9c2)] from by rw [hmod]; exact hins]
  rfl

/-- C9 witness: the two-comment thread `c2 replies-to c1`; the loader's
output is closed and its reply links always resolve. -/
theorem C9_reply_links_closed_witness :
    parse_comments ListComments.new [w9r1, w9r2] = .ok w9skel ∧
    (∀ k c, aLookup k w9skel.comments = some c →
      ∀ k' ∈ c.replies, (aLookup k' w9skel.comments).isSome = true) :=
  ⟨parse_comments_w9,
    (C9_reply_links_closed [w9r1, w9r2] ListComments.new w9skel parse_comments_w9 rfl).1⟩

/-! ## Claim C6 -/

theorem fetch_current_user_eq (find : UserId → Except String (Option User)) (delim : String)
    (auth_token : String) :
    fetch_current_user find delim auth_token =
      match find ("USER_" ++ firstSegment delim auth_token) with
      | .ok (some user) => .ok user
      | .ok none => .error (HttpError.unauthorized "Invalid access token.")
      | .error err => .error (HttpError.internalServerError err) := rfl

/-- C6 counterexample: the credential `""` is supplied and its leading
segment (delimiter `"#"`) is empty, so the claim requires `Unauthorized`;
but the resolver derives the key `USER_`, finds the profile stored there
and succeeds — it does not return `Unauthorized`. The `split().next()`
rejection of empty leading segments is dead code: the first segment,
possibly empty, is always used. -/
theorem C6_counterexample :
    firstSegment "#" "" = "" ∧
    fetch_current_user c6find "#" "" =
      .ok { id := "USER_", name := "ghost", picture_url := "p" } ∧
    ∀ msg, fetch_current_user c6find "#" "" ≠ .error (HttpError.unauthorized msg) := by
  refine ⟨by decide, by decide, ?_⟩
  intro msg h
  rw [show fetch_current_user c6find "#" "" =
      .ok { id := "USER_", name := "ghost", picture_url := "p" } from by decide] at h
  exact absurd h (by simp)

/-- C6 (amended): the Identity Resolver returns `Unauthorized` exactly
when a credential was supplied and no profile matches the derived lookup
key `USER_<leading segment>` (the leading segment — possibly empty — is
always extracted; an empty segment is not rejected on its own); it
returns `InternalError` when the profile fetch itself fails; and with no
credential it succeeds with no acting user. -/
theorem C6_identity_resolution (find : UserId → Except String (Option User)) (delim : String)
    (st : ListComments) (tok : String) :
    (check_current_user find delim (.ok none) st = .ok st) ∧
    ((∃ msg, fetch_current_user find delim tok = .error (HttpError.unauthorized msg)) ↔
      find ("USER_" ++ firstSegment delim tok) = .ok none) ∧
    (∀ u, find ("USER_" ++ firstSegment delim tok) = .ok (some u) →
      fetch_current_user find delim tok = .ok u ∧
        check_current_user find delim (.ok (some tok)) st =
          .ok { st with current_user := some u }) ∧
    (∀ e, find ("USER_" ++ firstSegment delim tok) = .error e →
      fetch_current_user find delim tok = .error (HttpError.internalServerError e)) := by
  refine ⟨rfl, ?_, ?_, ?_⟩
  · rw [fetch_current_user_eq]
    cases hf : find ("USER_" ++ firstSegment delim tok) with
    | ok uo =>
      cases uo with
      | some u =>
        constructor
        · rintro ⟨msg, hmsg⟩
          exact absurd hmsg (by simp)
        · intro hcontra
          exact absurd (Except.ok.inj hcontra) (by simp)
      | none => exact ⟨fun _ => rfl, fun _ => ⟨"Invalid access token.", rfl⟩⟩
    | error e =>
      constructor
      · rintro ⟨msg, hmsg⟩
        exact absurd hmsg (by simp)
      · intro hcontra
        exact absurd hcontra (by simp)
  · intro u hu
    have hf : fetch_current_user find delim tok = .ok u := by
      rw [fetch_current_user_eq, hu]
    refine ⟨hf, ?_⟩
    show (match fetch_current_user find delim tok with
      | Except.ok user => Except.ok { st with current_user := some user }
      | Except.error e => (Except.error e : Except HttpError ListComments)) =
        .ok { st with current_user := some u }
    rw [hf]
  · intro e he
    rw [fetch_current_user_eq, he]

/-- C6 witness: with a store holding only `USER_alice`, token
`alice#rest` resolves, token `bob#x` is `Unauthorized`, a store error is
`InternalError`, and no credential means no acting user. -/
theorem C6_identity_resolution_witness :
    (check_current_user
        (fun uid => if uid = "USER_alice" then .ok (some wUser) else .ok none) "#"
        (.ok none) wStateAnon = .ok wStateAnon) ∧
    ((fun uid => if uid = "USER_alice" then (.ok (some wUser) : Except String (Option User))
        else .ok none) ("USER_" ++ firstSegment "#" "bob#x") = .ok none) ∧
    (∃ msg, fetch_current_user
        (fun uid => if uid = "USER_alice" then .ok (some wUser) else .ok none) "#" "bob#x" =
      .error (HttpError.unauthorized msg)) :=
  ⟨(C6_identity_resolution
      (fun uid => if uid = "USER_alice" then .ok (some wUser) else .ok none) "#"
      wStateAnon "bob#x").1,
    by decide,
    ((C6_identity_resolution
      (fun uid => if uid = "USER_alice" then .ok (some wUser) else .ok none) "#"
      wStateAnon "bob#x").2.1).mpr (by decide)⟩

/-! ## Claim C7 -/

/-- C7: on a well-formed skeleton (sorted keys, closed reply links, a
strict rank along reply edges — all established by the loader), if any
comment that the serializer walks has an author id absent from the user
lookup, `serialize` fails with `internal_server_error`: it returns no
output at all, whichever comment's missing author is hit first. -/
theorem C7_missing_user_fails_serialization (st : ListComments) (d : CommentId → Nat)
    (k : CommentId) (c : Comment)
    (hS : SortedKeys st.comments)
    (hC : ClosedReplies st.comments)
    (hE : ∀ p ∈ st.comments, ∀ k' ∈ p.2.replies, d p.1 < d k')
    (hW : Walked st.comments k)
    (hkc : aLookup k st.comments = some c)
    (hu : aLookup c.user_id st.users = none) :
    ∃ msg, serialize st = .error (SerErr.http (HttpError.internalServerError msg)) := by
  have hnd : (keysOf st.comments).Nodup := nodup_keysOf_of_sorted hS
  cases hser : serialize st with
  | ok out =>
    exfalso
    obtain ⟨f, j, hj⟩ := serialize_ok_walked hnd hser k hW c hkc
    obtain ⟨f', _, u, hu', _⟩ := serialize_comment_ok_inv hj
    rw [hu] at hu'
    exact absurd hu' (by simp)
  | error e =>
    unfold serialize at hser
    have hmem := exCollect_error_mem hser
    rw [List.mem_map] at hmem
    obtain ⟨c', hc', hce⟩ := hmem
    obtain ⟨⟨k', hk'c⟩, _⟩ := mem_rootComments hc'
    have hk'look : aLookup k' st.comments = some c' := (mem_iff_aLookup_of_nodup hnd).mp hk'c
    have hk'mem : k' ∈ keysOf st.comments := by
      rw [← aLookup_isSome_iff_mem_keysOf, hk'look]
      rfl
    have hca : countAbove st.comments d k' < st.comments.length := by
      unfold countAbove
      have h1 : (keysOf st.comments).countP (fun k'' => decide (d k' < d k'')) ≤
          (keysOf st.comments).length := List.countP_le_length _
      have hlen : (keysOf st.comments).length = st.comments.length := by
        unfold keysOf
        rw [List.length_map]
      rcases lt_or_eq_of_le h1 with h | h
      · omega
      · exfalso
        have hall := List.countP_eq_length.mp h
        have := hall k' hk'mem
        rw [decide_eq_true_eq] at this
        exact lt_irrefl _ this
    have hnice := serialize_comment_nice st d hC hE st.comments.length k' c' hk'look hca
    rcases hnice with ⟨a, ha⟩ | ⟨msg, hmsg⟩
    · exact absurd (hce.symm.trans ha) (by simp)
    · have heq : Except.error e = Except.error (SerErr.http (HttpError.internalServerError msg)) :=
        hce.symm.trans hmsg
      exact ⟨msg, by rw [Except.error.inj heq]⟩

theorem sortedKeys_singleton {α : Type} (k : String) (v : α) : SortedKeys [(k, v)] :=
  List.Pairwise.cons (fun y hy => absurd hy (List.not_mem_nil y)) List.Pairwise.nil

/-- C7 witness: the single root comment authored by the unknown `u9`
makes the whole serialization fail with `internal_server_error`. -/
theorem C7_missing_user_fails_serialization_witness :
    aLookup "c1" w7State.comments = some w7c ∧
    aLookup w7c.user_id w7State.users = none ∧
    ∃ msg, serialize w7State = .error (SerErr.http (HttpError.internalServerError msg)) :=
  ⟨by decide, rfl,
    C7_missing_user_fails_serialization w7State (fun _ => 0) "c1" w7c
      (sortedKeys_singleton _ _) (by unfold ClosedReplies; decide) (by decide)
      (Walked.root "c1" w7c (by decide) rfl) (by decide) rfl⟩

/-! ## Claim C8 -/

/-- C8: on success the top level of the serialized output consists of
exactly the non-reply comments, listed in ascending comment-id order
(the map's key order), and every successfully serialized node carries its
children in `replies`-list order, nested recursively, with an empty —
never absent — children list for a childless comment. -/
theorem C8_serialized_tree_shape (st : ListComments) (out : List CommentJson)
    (hS : SortedKeys st.comments) (hI : IdsMatch st.comments)
    (hok : serialize st = .ok out) :
    out.map CommentJson.id = (st.comments.filter (fun p => !p.2.is_reply)).map Prod.fst ∧
    (out.map CommentJson.id).Pairwise (· < ·) ∧
    (∀ (f : Nat) (c : Comment) (j : CommentJson), serialize_comment st f c = .ok j →
      j.id = c.id ∧ j.replies.map CommentJson.id = c.replies ∧
        (c.replies = [] → j.replies = []) ∧
        List.Forall₂
          (fun id j' => ∃ ch, aLookup id st.comments = some ch ∧
            ∃ f', serialize_comment st f' ch = .ok j')
          c.replies j.replies) := by
  obtain ⟨hids, _⟩ := serialize_ok_top hI hok
  refine ⟨hids, ?_, ?_⟩
  · rw [hids]
    have hsub : List.Sublist ((st.comments.filter (fun p => !p.2.is_reply)).map Prod.fst)
        (keysOf st.comments) :=
      List.Sublist.map Prod.fst (List.filter_sublist st.comments)
    exact List.Pairwise.sublist hsub hS
  · intro f c j hj
    obtain ⟨hmap, hnil, hforall⟩ := serialize_comment_ok_children hI hj
    exact ⟨(serialize_comment_ok_fields hj).1, hmap, hnil, hforall⟩

theorem sortedKeys_pair {α : Type} {k1 k2 : String} (h : k1 < k2) (v1 : α) (v2 : α) :
    SortedKeys [(k1, v1), (k2, v2)] := by
  refine List.Pairwise.cons ?_ (sortedKeys_singleton k2 v2)
  intro y hy
  rw [show y = k2 from by simpa [keysOf] using hy]
  exact h

/-- C8 witness: on the two-comment thread, the top level is exactly
`[c1]` and the nested reply list of `c1` is `[c2]`. -/
theorem C8_serialized_tree_shape_witness :
    serialize w8State = .ok w8Out ∧
    w8Out.map CommentJson.id =
      (w8State.comments.filter (fun p => !p.2.is_reply)).map Prod.fst :=
  ⟨rfl,
    (C8_serialized_tree_shape w8State w8Out
      (sortedKeys_pair (string_lt (by decide)) w8c1 w8c2) (by unfold IdsMatch; decide) rfl).1⟩

end CommentableRs
